import Mathlib

/-!
# Verification of libfs (FreeSurfer file format codecs and mesh topology engine)

Shallow embedding of the core of `include/libfs.h`:

* the endian codec primitives (`_freadt`, `_fread3`, `_fwritet`, `_fwritei3`)
  modelled over big-endian byte lists (`List Nat`, one `Nat` per byte);
* the Curv codec (`fs::read_curv`, `fs::write_curv`);
* the Label structure (`fs::Label::vert_in_label`);
* the MGH codec (`fs::read_mgh_header`, `fs::_read_mgh_data`, `fs::write_mgh`);
* the Annot codec (`fs::read_annot`, `fs::_read_annot_colortable`);
* the mesh topology engine (`fs::Mesh::as_adjmatrix`, `as_edgelist`,
  `as_adjlist`, `_as_adjlist_via_edgeset`, `smooth_pvd_nn`).

Modelling conventions:

* a byte stream is a `List Nat`; reading past the end of the stream, which in
  the C++ leaves the destination unspecified, is modelled as `Option.none`;
* machine integers are `Int` with explicit two's-complement wrapping
  (`wrap32`) where C++ overflow or conversions matter;
* IEEE-754 `float` values are carried as their 32-bit patterns (`Nat < 2^32`);
  the codecs move these patterns byte for byte, so bit-exactness is literal;
* out-of-bounds `std::vector` accesses (undefined behaviour in C++) are
  modelled as failures (`Option.none`).
-/

namespace fs

/-- Two's-complement interpretation of an arbitrary integer as a signed
32-bit value (the value a C++ `int32_t` holds after wrapping). -/
def wrap32 (z : Int) : Int := (z + 2 ^ 31) % 2 ^ 32 - 2 ^ 31

/-- Conversion of an unsigned word of `bits` bits to the signed integer that
the same bit pattern denotes in two's complement. -/
def asIntSigned (bits : Nat) (n : Nat) : Int :=
  if n < 2 ^ (bits - 1) then (n : Int) else (n : Int) - 2 ^ bits

/-- C++ conversion of an `Int` value to `size_t` (64-bit unsigned). -/
def szt (i : Int) : Nat := (i % 2 ^ 64).toNat

/-- Big-endian assembly of a byte list into an unsigned value. -/
def bytesToNatBE (bs : List Nat) : Nat := bs.foldl (fun a b => a * 256 + b) 0

/-- Big-endian byte serialization of `v mod 256^w` into `w` bytes. -/
def natToBytesBE : Nat → Nat → List Nat
  | 0, _ => []
  | w + 1, v => (v / 256 ^ w) % 256 :: natToBytesBE w v

/-- Consume exactly `k` bytes from the stream; fails when the stream is
shorter (a short read in the C++ leaves garbage, modelled as failure). -/
def readBytes (k : Nat) (s : List Nat) : Option (List Nat × List Nat) :=
  if k ≤ s.length then some (s.take k, s.drop k) else none

/-- `fs::_freadt<T>` for an unsigned type of `w` bytes: read `w` bytes from a
big-endian stream and assemble the value. -/
def readU (w : Nat) (s : List Nat) : Option (Nat × List Nat) :=
  (readBytes w s).map (fun p => (bytesToNatBE p.1, p.2))

/-- `fs::_freadt<int32_t>`: a big-endian 32-bit signed read. -/
def readI32 (s : List Nat) : Option (Int × List Nat) :=
  (readU 4 s).map (fun p => (asIntSigned 32 p.1, p.2))

/-- `fs::_freadt<int16_t>`: a big-endian 16-bit signed read. -/
def readI16 (s : List Nat) : Option (Int × List Nat) :=
  (readU 2 s).map (fun p => (asIntSigned 16 p.1, p.2))

/-- `fs::_fread3`: read 3 bytes, big-endian, into the low 24 bits of an
unsigned 32-bit integer with the high byte masked to zero. -/
def fread3 (s : List Nat) : Option (Nat × List Nat) := readU 3 s

/-- `fs::_fwritet<int32_t>`: big-endian serialization of a signed 32-bit
value (the bit pattern of `v` wrapped to 32 bits). -/
def writeI32 (v : Int) : List Nat := natToBytesBE 4 (v % 2 ^ 32).toNat

/-- `fs::_fwritet<int16_t>`. -/
def writeI16 (v : Int) : List Nat := natToBytesBE 2 (v % 2 ^ 16).toNat

/-- `fs::_fwritet<float>` on a float given by its 32-bit pattern. -/
def writeF32 (w : Nat) : List Nat := natToBytesBE 4 (w % 2 ^ 32)

/-- `fs::_fwritei3`: write the low 24 bits of `i` as 3 big-endian bytes. -/
def fwritei3 (i : Nat) : List Nat := natToBytesBE 3 (i % 2 ^ 24)

/-- Loop of `fs::read_curv` / `fs::_read_mgh_data` reading `k` consecutive
32-bit floats; the floats are kept as their bit patterns. -/
def readF32List : Nat → List Nat → Option (List Nat × List Nat)
  | 0, s => some ([], s)
  | k + 1, s => do
    let (w, s1) ← readU 4 s
    let (ws, r) ← readF32List k s1
    pure (w :: ws, r)

/-- Decidable equality for `Except` results, used to evaluate the codecs at
concrete inputs. -/
instance exceptDecEq {ε α : Type} [DecidableEq ε] [DecidableEq α] :
    DecidableEq (Except ε α) := fun a b =>
  match a, b with
  | .error e1, .error e2 =>
      decidable_of_iff (e1 = e2) ⟨fun h => by rw [h], fun h => by injection h⟩
  | .error _, .ok _ => isFalse (fun hc => Except.noConfusion hc)
  | .ok _, .error _ => isFalse (fun hc => Except.noConfusion hc)
  | .ok v1, .ok v2 =>
      decidable_of_iff (v1 = v2) ⟨fun h => by rw [h], fun h => by injection h⟩

/-! ## Basic lemmas about the byte primitives -/

theorem natToBytesBE_length (w v : Nat) : (natToBytesBE w v).length = w := by
  induction w generalizing v with
  | zero => rfl
  | succ w ih => simp [natToBytesBE, ih]

theorem foldl_byte_shift (l : List Nat) (a : Nat) :
    List.foldl (fun a b => a * 256 + b) a l
      = a * 256 ^ l.length + List.foldl (fun a b => a * 256 + b) 0 l := by
  induction l generalizing a with
  | nil => simp
  | cons x xs ihx =>
    simp only [List.foldl_cons, List.length_cons]
    rw [ihx (a * 256 + x), ihx (0 * 256 + x)]
    ring

theorem bytesToNatBE_natToBytesBE (w v : Nat) :
    bytesToNatBE (natToBytesBE w v) = v % 256 ^ w := by
  induction w generalizing v with
  | zero => simp [natToBytesBE, bytesToNatBE, Nat.mod_one]
  | succ w ih =>
    have hsplit : bytesToNatBE (natToBytesBE (w + 1) v)
        = List.foldl (fun a b => a * 256 + b) ((v / 256 ^ w) % 256) (natToBytesBE w v) := by
      simp [natToBytesBE, bytesToNatBE]
    rw [hsplit, foldl_byte_shift, natToBytesBE_length]
    have hrec : List.foldl (fun a b => a * 256 + b) 0 (natToBytesBE w v) = v % 256 ^ w := ih v
    rw [hrec]
    have h1 : v % 256 ^ (w + 1) = v % (256 ^ w * 256) := by ring_nf
    rw [h1, Nat.mod_mul]
    ring

theorem readBytes_append (w : Nat) (l r : List Nat) (h : l.length = w) :
    readBytes w (l ++ r) = some (l, r) := by
  subst h
  simp [readBytes, List.take_left, List.drop_left]

theorem readU_append (w : Nat) (v : Nat) (r : List Nat) :
    readU w (natToBytesBE w v ++ r) = some (v % 256 ^ w, r) := by
  simp [readU, readBytes_append w _ r (natToBytesBE_length w v), bytesToNatBE_natToBytesBE]

theorem readBytes_rest {k : Nat} {s rest taken : List Nat}
    (h : readBytes k s = some (taken, rest)) : rest = s.drop k ∧ k ≤ s.length := by
  unfold readBytes at h
  split at h
  next hk =>
    simp only [Option.some.injEq, Prod.mk.injEq] at h
    exact ⟨h.2.symm, hk⟩
  next => exact absurd h (by simp)

theorem readU_rest {w : Nat} {s rest : List Nat} {v : Nat}
    (h : readU w s = some (v, rest)) : rest = s.drop w ∧ w ≤ s.length := by
  unfold readU at h
  cases hb : readBytes w s with
  | none => rw [hb] at h; exact absurd h (by simp)
  | some p =>
    rw [hb] at h
    obtain ⟨rest_eq, hle⟩ := readBytes_rest hb
    simp only [Option.map_some', Option.some.injEq, Prod.mk.injEq] at h
    exact ⟨h.2 ▸ rest_eq, hle⟩

theorem readI32_rest {s rest : List Nat} {v : Int}
    (h : readI32 s = some (v, rest)) : rest = s.drop 4 ∧ 4 ≤ s.length := by
  unfold readI32 at h
  cases hu : readU 4 s with
  | none => rw [hu] at h; exact absurd h (by simp)
  | some p =>
    rw [hu] at h
    simp only [Option.map_some', Option.some.injEq, Prod.mk.injEq] at h
    exact h.2 ▸ readU_rest hu

theorem readI16_rest {s rest : List Nat} {v : Int}
    (h : readI16 s = some (v, rest)) : rest = s.drop 2 ∧ 2 ≤ s.length := by
  unfold readI16 at h
  cases hu : readU 2 s with
  | none => rw [hu] at h; exact absurd h (by simp)
  | some p =>
    rw [hu] at h
    simp only [Option.map_some', Option.some.injEq, Prod.mk.injEq] at h
    exact h.2 ▸ readU_rest hu

theorem asIntSigned_of_lt {v : Int} (h1 : -(2 ^ 31) ≤ v) (h2 : v < 2 ^ 31) :
    asIntSigned 32 (v % 2 ^ 32).toNat = v := by
  unfold asIntSigned
  rcases le_or_lt 0 v with hv | hv
  · have hmod : v % 2 ^ 32 = v := Int.emod_eq_of_lt hv (by omega)
    rw [hmod]
    have hlt : v.toNat < 2 ^ (32 - 1) := by omega
    simp only [if_pos hlt]
    omega
  · have hmod : v % 2 ^ 32 = v + 2 ^ 32 := by
      have h232 : (v + 2 ^ 32) % 2 ^ 32 = v % 2 ^ 32 := by omega
      rw [← h232]
      exact Int.emod_eq_of_lt (by omega) (by omega)
    rw [hmod]
    have hge : ¬ (v + 2 ^ 32).toNat < 2 ^ (32 - 1) := by omega
    simp only [if_neg hge]
    omega

theorem readI32_append (v : Int) (r : List Nat) (h1 : -(2 ^ 31) ≤ v) (h2 : v < 2 ^ 31) :
    readI32 (writeI32 v ++ r) = some (v, r) := by
  unfold readI32 writeI32
  rw [readU_append]
  have hlt : (v % 2 ^ 32).toNat % 256 ^ 4 = (v % 2 ^ 32).toNat := by
    apply Nat.mod_eq_of_lt
    have hm : v % 2 ^ 32 < 2 ^ 32 := Int.emod_lt_of_pos v (by norm_num)
    omega
  rw [hlt]
  simp only [Option.map_some']
  rw [asIntSigned_of_lt h1 h2]

/-! ## Curv codec: `fs::read_curv` (stream overload) and `fs::write_curv` -/

/-- Decoded form of a curv file, mirroring `fs::Curv`. The per-vertex floats
are carried as their 32-bit patterns. -/
structure Curv where
  num_faces : Int := 100000
  data : List Nat := []
  num_vertices : Int := 0
  num_values_per_vertex : Int := 1
  deriving Repr, DecidableEq

/-- Failure modes of `fs::read_curv`: the two `std::domain_error` throws of
the source, plus stream exhaustion. -/
inductive CurvError where
  | magicMismatch
  | valuesPerVertexNot1
  | truncated
  deriving Repr, DecidableEq

/-- `fs::read_curv(Curv*, std::istream*, const std::string&)`: consume the
24-bit magic and **throw** `CurvError.magicMismatch` when it differs from
16777215; consume `num_vertices`, `num_faces`, `num_values_per_vertex`;
throw unless the latter equals 1; then read `num_vertices` floats
(`for(int i=0; i<curv->num_vertices; i++)`, hence `max 0` iterations for a
negative count, i.e. `Int.toNat`). -/
def read_curv (s : List Nat) : Except CurvError Curv :=
  match fread3 s with
  | none => .error .truncated
  | some (magic, s1) =>
    if magic ≠ 16777215 then .error .magicMismatch
    else match readI32 s1 with
      | none => .error .truncated
      | some (nv, s2) =>
        match readI32 s2 with
        | none => .error .truncated
        | some (nf, s3) =>
          match readI32 s3 with
          | none => .error .truncated
          | some (nvpv, s4) =>
            if nvpv ≠ 1 then .error .valuesPerVertexNot1
            else match readF32List nv.toNat s4 with
              | none => .error .truncated
              | some (data, _) =>
                .ok { num_vertices := nv, num_faces := nf,
                      num_values_per_vertex := nvpv, data := data }

/-- `fs::write_curv(std::ostream&, std::vector<float>, int32_t)`: emit the
magic, `data.size()` (converted to `int32_t`, i.e. its low 32 bits),
`num_faces`, the literal 1, then the float payload. -/
def write_curv (curv_data : List Nat) (num_faces : Int := 100000) : List Nat :=
  fwritei3 16777215
    ++ natToBytesBE 4 (curv_data.length % 2 ^ 32)
    ++ writeI32 num_faces
    ++ writeI32 1
    ++ curv_data.flatMap (fun w => natToBytesBE 4 (w % 2 ^ 32))

theorem readF32List_roundtrip (data : List Nat) (hw : ∀ w ∈ data, w < 2 ^ 32)
    (r : List Nat) :
    readF32List data.length (data.flatMap (fun w => natToBytesBE 4 (w % 2 ^ 32)) ++ r)
      = some (data, r) := by
  induction data with
  | nil => simp [readF32List]
  | cons x xs ih =>
    have hx : x < 2 ^ 32 := hw x (List.mem_cons_self x xs)
    have hxs : ∀ w ∈ xs, w < 2 ^ 32 := fun w hwreq => hw w (List.mem_cons_of_mem x hwreq)
    simp only [List.length_cons, List.flatMap_cons, readF32List, List.append_assoc]
    rw [readU_append]
    have hmod : x % 2 ^ 32 % 256 ^ 4 = x := by
      have h1 : x % 2 ^ 32 = x := Nat.mod_eq_of_lt hx
      rw [h1]
      exact Nat.mod_eq_of_lt (by omega)
    rw [hmod]
    simp only [Option.bind_eq_bind, Option.some_bind]
    rw [ih hxs]
    rfl

/-- C3: write_curv then read_curv reproduces the data bit-exactly.
For every vector of 32-bit float patterns whose length fits in a signed
32-bit integer (and every in-range `num_faces` header value), reading back
the bytes produced by `write_curv` yields exactly the written data and a
`num_vertices` equal to the vector's length. -/
theorem curv_roundtrip (data : List Nat) (num_faces : Int)
    (hlen : data.length < 2 ^ 31)
    (hw : ∀ w ∈ data, w < 2 ^ 32)
    (hnf1 : -(2 ^ 31) ≤ num_faces) (hnf2 : num_faces < 2 ^ 31) :
    read_curv (write_curv data num_faces)
      = .ok { num_vertices := (data.length : Int), num_faces := num_faces,
              num_values_per_vertex := 1, data := data } := by
  have hmagic : fwritei3 16777215 = natToBytesBE 3 16777215 := by norm_num [fwritei3]
  have hnv : natToBytesBE 4 (data.length % 2 ^ 32) = writeI32 (data.length : Int) := by
    unfold writeI32
    congr 1
  have h3 : ∀ r : List Nat, fread3 (natToBytesBE 3 16777215 ++ r) = some (16777215, r) := by
    intro r
    unfold fread3
    rw [readU_append]
    norm_num
  have hA : ∀ r, readI32 (writeI32 (data.length : Int) ++ r) = some ((data.length : Int), r) :=
    fun r => readI32_append _ r (le_trans (by norm_num) (Int.natCast_nonneg _))
      (by exact_mod_cast hlen)
  have hB : ∀ r, readI32 (writeI32 num_faces ++ r) = some (num_faces, r) :=
    fun r => readI32_append _ r hnf1 hnf2
  have hC : ∀ r, readI32 (writeI32 1 ++ r) = some (1, r) :=
    fun r => readI32_append _ r (by norm_num) (by norm_num)
  have hrt := readF32List_roundtrip data hw []
  rw [List.append_nil] at hrt
  unfold read_curv write_curv
  rw [hmagic, hnv]
  simp only [List.append_assoc, h3, hA, hB, hC, ne_eq, not_true_eq_false, reduceIte,
    Int.toNat_natCast, hrt]

/-- Witness for `curv_roundtrip` at a concrete 2-element vector. -/
theorem curv_roundtrip_witness :
    read_curv (write_curv [1078530011, 3212836864] 100000)
      = .ok { num_vertices := 2, num_faces := 100000,
              num_values_per_vertex := 1, data := [1078530011, 3212836864] } :=
  curv_roundtrip [1078530011, 3212836864] 100000 (by norm_num)
    (by decide) (by norm_num) (by norm_num)

/-- C1 counterexample: a stream whose 24-bit magic is 0 (≠ 0xFFFFFF) followed
by a syntactically complete curv body. `read_curv` throws instead of
continuing, so no Curv instance is decoded. -/
theorem read_curv_bad_magic_fails :
    read_curv ([0, 0, 0] ++ writeI32 1 ++ writeI32 100000 ++ writeI32 1
        ++ natToBytesBE 4 1078530011)
      = .error CurvError.magicMismatch := by
  decide

/-- C1 amended: for every input stream whose leading 24-bit magic differs
from 0xFFFFFF, `read_curv` fails with the magic-mismatch domain error; the
header and data after the magic are not decoded. -/
theorem read_curv_magic_mismatch_fatal (s : List Nat) (magic : Nat) (s1 : List Nat)
    (hread : fread3 s = some (magic, s1)) (hne : magic ≠ 16777215) :
    read_curv s = .error CurvError.magicMismatch := by
  unfold read_curv
  simp only [hread, ne_eq, hne, not_false_eq_true, reduceIte]

/-- Witness for `read_curv_magic_mismatch_fatal` at a concrete stream. -/
theorem read_curv_magic_mismatch_fatal_witness :
    read_curv ([0, 0, 77] ++ writeI32 1) = .error CurvError.magicMismatch :=
  read_curv_magic_mismatch_fatal _ 77 (writeI32 1) (by decide) (by decide)

/-! ## Label: `fs::Label` and `fs::Label::vert_in_label` -/

/-- `fs::Label`: parallel sequences; `vertex` entries are C++ `int`. -/
structure Label where
  vertex : List Int
  coord_x : List Nat := []
  coord_y : List Nat := []
  coord_z : List Nat := []
  value : List Nat := []
  deriving Repr, DecidableEq

/-- The unchecked C++ write `is_in[this->vertex[i]] = true`: a
`std::vector<bool>` store through `operator[]`, which is undefined behaviour
(modelled as `none`) when the `int` index is negative or not below the
vector's size. -/
def setVectorBool (l : List Bool) (i : Int) : Option (List Bool) :=
  if 0 ≤ i ∧ i.toNat < l.length then some (l.set i.toNat true) else none

/-- `fs::Label::vert_in_label(size_t)`: allocate `surface_num_verts`
entries, all `false`, then set the position of every label vertex to `true`
with an unchecked `operator[]` write. -/
def vert_in_label (label : Label) (surface_num_verts : Nat) : Option (List Bool) :=
  label.vertex.foldlM (fun is_in v => setVectorBool is_in v)
    (List.replicate surface_num_verts false)

/-- The condition under which `fs::Label::vert_in_label` prints its
"Invalid number of vertices for surface" warning:
`surface_num_verts < this->vertex.size()` — the entry count, not the
maximum referenced vertex index. -/
def vert_in_label_warns (label : Label) (surface_num_verts : Nat) : Bool :=
  surface_num_verts < label.vertex.length

/-- C2 counterexample: the label containing the single vertex index 5, asked
for a result of size 3. The claim says the call reports the input as invalid
(total < max referenced index) and performs no out-of-bounds write; the code
does not warn (3 ≥ vertex.size() = 1) and writes `is_in[5]` out of bounds of
the 3-element vector. -/
theorem vert_in_label_oob_counterexample :
    vert_in_label { vertex := [5] } 3 = none ∧
      vert_in_label_warns { vertex := [5] } 3 = false := by
  decide

theorem vert_in_label_fold (vs : List Int) (acc : List Bool)
    (hb : ∀ v ∈ vs, 0 ≤ v ∧ v < (acc.length : Int)) :
    ∃ out, List.foldlM (fun is_in v => setVectorBool is_in v) acc vs = some out ∧
      out.length = acc.length ∧
      ∀ i : Nat, out.getD i false = (acc.getD i false || decide ((i : Int) ∈ vs)) := by
  induction vs generalizing acc with
  | nil =>
    refine ⟨acc, rfl, rfl, ?_⟩
    intro i
    simp
  | cons v vs ih =>
    obtain ⟨hv0, hvlt⟩ := hb v (List.mem_cons_self v vs)
    have hset : setVectorBool acc v = some (acc.set v.toNat true) := by
      unfold setVectorBool
      rw [if_pos ⟨hv0, by omega⟩]
    have hb' : ∀ u ∈ vs, 0 ≤ u ∧ u < ((acc.set v.toNat true).length : Int) := by
      intro u hu
      rw [List.length_set]
      exact hb u (List.mem_cons_of_mem v hu)
    obtain ⟨out, hout, hlen, hchar⟩ := ih (acc.set v.toNat true) hb'
    refine ⟨out, ?_, by rw [hlen, List.length_set], ?_⟩
    · rw [List.foldlM_cons, hset]
      exact hout
    · intro i
      rw [hchar i]
      have hgetset : (acc.set v.toNat true).getD i false
          = if i = v.toNat then true else acc.getD i false := by
        rcases eq_or_ne i v.toNat with heq | hne
        · subst heq
          rw [if_pos rfl]
          rw [List.getD_eq_getElem?_getD, List.getElem?_set_self (by omega)]
          rfl
        · rw [if_neg hne]
          rw [List.getD_eq_getElem?_getD, List.getElem?_set_ne (by omega),
            ← List.getD_eq_getElem?_getD]
      rw [hgetset]
      have hmemc : ((i : Int) ∈ v :: vs) ↔ ((i : Int) = v ∨ (i : Int) ∈ vs) :=
        List.mem_cons
      rcases eq_or_ne i v.toNat with heq | hne
      · subst heq
        have : (v.toNat : Int) = v := by omega
        simp [this]
      · have : ¬ ((i : Int) = v) := by omega
        simp [this, hne]

/-- C2 amended: when every vertex index of the label lies in
`[0, total_vertex_count)`, `vert_in_label` returns a boolean sequence of
exactly that length, true exactly at the indices present in `vertex`. When
some index is out of that range, the unchecked write `is_in[vertex[i]]`
goes outside the bounds of the result vector (modelled as failure), and
the "invalid" warning is governed by `total_vertex_count < vertex.size()`
(the entry count), not by the maximum referenced index. -/
theorem vert_in_label_in_bounds (label : Label) (n : Nat)
    (hb : ∀ v ∈ label.vertex, 0 ≤ v ∧ v < (n : Int)) :
    ∃ out, vert_in_label label n = some out ∧ out.length = n ∧
      (∀ i, i < n → (out.getD i false = true ↔ (i : Int) ∈ label.vertex)) ∧
      (vert_in_label_warns label n = true ↔ n < label.vertex.length) := by
  have hb' : ∀ v ∈ label.vertex, 0 ≤ v ∧ v < ((List.replicate n false).length : Int) := by
    intro v hv
    rw [List.length_replicate]
    exact hb v hv
  obtain ⟨out, hout, hlen, hchar⟩ := vert_in_label_fold label.vertex _ hb'
  refine ⟨out, hout, by rw [hlen, List.length_replicate], ?_, ?_⟩
  · intro i hi
    have hc := hchar i
    have hrepl : (List.replicate n false).getD i false = false := by
      by_cases hj : i < n
      · rw [List.getD_eq_getElem?_getD, List.getElem?_replicate, if_pos hj]
        rfl
      · rw [List.getD_eq_getElem?_getD, List.getElem?_replicate, if_neg hj]
        rfl
    rw [hrepl] at hc
    rw [hc]
    simp
  · unfold vert_in_label_warns
    simp

/-- Witness for `vert_in_label_in_bounds` with vertices {0, 2} of a
3-vertex surface. -/
theorem vert_in_label_in_bounds_witness :
    ∃ out, vert_in_label { vertex := [0, 2] } 3 = some out ∧ out.length = 3 ∧
      (∀ i, i < 3 → (out.getD i false = true ↔ (i : Int) ∈ [(0 : Int), 2])) ∧
      (vert_in_label_warns { vertex := [0, 2] } 3 = true ↔ 3 < [(0 : Int), 2].length) :=
  vert_in_label_in_bounds { vertex := [0, 2] } 3 (by decide)

/-! ## Mesh topology engine: `fs::Mesh::smooth_pvd_nn` (static overload)

The per-vertex values are C++ `float`; the embedding is generic in the
carrier `α` equipped with the operations the loop uses (`+`, `/` and the
conversion of the `size_t` value `num_neigh+1`), so every theorem below
holds in particular for IEEE-754 arithmetic. -/

/-- The unchecked C++ write `current_pvd_smoothed[v_idx] = val_sum`. -/
def listSet {α : Type} (l : List α) (i : Nat) (x : α) : Option (List α) :=
  if i < l.length then some (l.set i x) else none

/-- Inner loop of `fs::Mesh::smooth_pvd_nn`:
`val_sum += current_pvd_source[mesh_adj[v_idx][neigh_rel_idx]] / (num_neigh+1)`,
iterated over the neighbor list, with `c` the already-computed divisor
`num_neigh+1`. -/
def nnSumM {α : Type} [Add α] [Div α] (source : List α) (c : α) :
    List Nat → α → Option α
  | [], s => some s
  | u :: us, s =>
    match source.get? u with
    | none => none
    | some x => nnSumM source c us (s + x / c)

/-- One vertex update of `fs::Mesh::smooth_pvd_nn`: start from
`current_pvd_source[v_idx]` and add the scaled neighbor values. -/
def smooth_vertex_sum {α : Type} [Add α] [Div α] [NatCast α]
    (source : List α) (neigh : List Nat) (init : α) : Option α :=
  nnSumM source ((neigh.length + 1 : Nat) : α) neigh init

/-- Inner `for(v_idx ...)` loop of one smoothing iteration, over the listed
vertex indices, threading the output vector. -/
def smooth_pass_go {α : Type} [Add α] [Div α] [NatCast α]
    (source : List α) (mesh_adj : List (List Nat)) :
    List Nat → List α → Option (List α)
  | [], sm => some sm
  | v :: vs, sm =>
    match source.get? v, mesh_adj.get? v with
    | some init, some neigh =>
      match smooth_vertex_sum source neigh init with
      | none => none
      | some val =>
        match listSet sm v val with
        | none => none
        | some sm' => smooth_pass_go source mesh_adj vs sm'
    | _, _ => none

/-- One full smoothing iteration of `fs::Mesh::smooth_pvd_nn`: update every
vertex `0 ≤ v_idx < mesh_adj.size()` reading only `source`. -/
def smooth_pass {α : Type} [Add α] [Div α] [NatCast α]
    (mesh_adj : List (List Nat)) (source smoothed : List α) : Option (List α) :=
  smooth_pass_go source mesh_adj (List.range mesh_adj.length) smoothed

/-- Outer iteration loop of `fs::Mesh::smooth_pvd_nn`: after each pass the
smoothed vector becomes the source of the next iteration
(`if(i < num_iter - 1) current_pvd_source = current_pvd_smoothed;`), and the
last pass's output is returned. -/
def smooth_go {α : Type} [Add α] [Div α] [NatCast α]
    (mesh_adj : List (List Nat)) : Nat → List α → List α → Option (List α)
  | 0, _, smoothed => some smoothed
  | 1, source, smoothed => smooth_pass mesh_adj source smoothed
  | r + 2, source, smoothed => do
    let sm ← smooth_pass mesh_adj source smoothed
    smooth_go mesh_adj (r + 1) sm sm

/-- `fs::Mesh::smooth_pvd_nn(mesh_adj, pvd, num_iter)` (the static
overload): `current_pvd_smoothed` starts as a value-initialized
`std::vector<float>(pvd.size())`, i.e. all zeros. -/
def smooth_pvd_nn {α : Type} [Add α] [Div α] [NatCast α] [Zero α]
    (mesh_adj : List (List Nat)) (pvd : List α) (num_iter : Nat) : Option (List α) :=
  smooth_go mesh_adj num_iter pvd (List.replicate pvd.length 0)

/-- The spec's lock-step update
`new[v] = old[v] + Σ_{u ∈ adj(v)} old[u] / (|adj(v)|+1)`. -/
def smooth_spec_step {α : Type} [Add α] [Div α] [NatCast α] [Zero α]
    (mesh_adj : List (List Nat)) (old : List α) : List α :=
  (List.range mesh_adj.length).map (fun v =>
    let neigh := mesh_adj.getD v []
    neigh.foldl (fun s u => s + old.getD u 0 / ((neigh.length + 1 : Nat) : α))
      (old.getD v 0))

/-- C10: with `num_iter = 0` the iteration loop never runs and the freshly
value-initialized (all-zero) smoothed vector of length `pvd.size()` is
returned; the input field is NOT returned unchanged. -/
theorem smooth_pvd_nn_zero_iters {α : Type} [Add α] [Div α] [NatCast α] [Zero α]
    (mesh_adj : List (List Nat)) (pvd : List α) :
    smooth_pvd_nn mesh_adj pvd 0 = some (List.replicate pvd.length (0 : α)) := rfl

theorem nnSumM_eq_foldl {α : Type} [Add α] [Div α] [Zero α] (source : List α) (c : α)
    (ns : List Nat) (hb : ∀ u ∈ ns, u < source.length) :
    ∀ init : α, nnSumM source c ns init
      = some (ns.foldl (fun s u => s + source.getD u 0 / c) init) := by
  induction ns with
  | nil => intro init; rfl
  | cons u us ih =>
    intro init
    have hu : u < source.length := hb u (List.mem_cons_self u us)
    have hget : source.get? u = some (source.getD u 0) := by
      rw [List.getD_eq_getElem?_getD, ← List.get?_eq_getElem?]
      cases hcase : source.get? u with
      | none => exact absurd (List.get?_eq_none.mp hcase) (by omega)
      | some x => rfl
    unfold nnSumM
    rw [hget]
    exact ih (fun w hw => hb w (List.mem_cons_of_mem u hw)) _

theorem smooth_pass_go_spec {α : Type} [Add α] [Div α] [NatCast α] [Zero α]
    (source : List α) (mesh_adj : List (List Nat))
    (hsrc : mesh_adj.length = source.length)
    (hnb : ∀ neigh ∈ mesh_adj, ∀ u ∈ neigh, u < source.length) :
    ∀ (vs : List Nat) (sm : List α), sm.length = mesh_adj.length →
      (∀ v ∈ vs, v < mesh_adj.length) →
      ∃ out, smooth_pass_go source mesh_adj vs sm = some out ∧
        out.length = mesh_adj.length ∧
        ∀ i : Nat, out.get? i
          = if i ∈ vs then some ((smooth_spec_step mesh_adj source).getD i 0)
            else sm.get? i := by
  intro vs
  induction vs with
  | nil =>
    intro sm hsm _
    exact ⟨sm, rfl, hsm, fun i => by simp⟩
  | cons v vs ih =>
    intro sm hsm hvs
    have hv : v < mesh_adj.length := hvs v (List.mem_cons_self v vs)
    have hsrcv : source.get? v = some (source.getD v 0) := by
      rw [List.getD_eq_getElem?_getD, ← List.get?_eq_getElem?]
      cases hcase : source.get? v with
      | none => exact absurd (List.get?_eq_none.mp hcase) (by omega)
      | some x => rfl
    have hadjv : mesh_adj.get? v = some (mesh_adj.getD v []) := by
      rw [List.getD_eq_getElem?_getD, ← List.get?_eq_getElem?]
      cases hcase : mesh_adj.get? v with
      | none => exact absurd (List.get?_eq_none.mp hcase) (by omega)
      | some x => rfl
    have hneigh : ∀ u ∈ mesh_adj.getD v [], u < source.length := by
      intro u hu
      refine hnb _ ?_ u hu
      have hgd : mesh_adj.getD v [] = mesh_adj.get ⟨v, hv⟩ := by
        rw [List.getD_eq_getElem?_getD, List.getElem?_eq_getElem hv]
        rfl
      rw [hgd]
      exact List.get_mem _ _ _
    have hsum := nnSumM_eq_foldl source
      (((mesh_adj.getD v []).length + 1 : Nat) : α) (mesh_adj.getD v []) hneigh
      (source.getD v 0)
    have hsetv : listSet sm v
        ((smooth_spec_step mesh_adj source).getD v 0)
        = some (sm.set v ((smooth_spec_step mesh_adj source).getD v 0)) := by
      unfold listSet
      rw [if_pos (by omega)]
    have hspecv : (smooth_spec_step mesh_adj source).getD v 0
        = (mesh_adj.getD v []).foldl
            (fun s u => s + source.getD u 0 / (((mesh_adj.getD v []).length + 1 : Nat) : α))
            (source.getD v 0) := by
      unfold smooth_spec_step
      rw [List.getD_eq_getElem?_getD, List.getElem?_map, List.getElem?_range hv]
      rfl
    obtain ⟨out, hout, hlen, hchar⟩ := ih
      (sm.set v ((smooth_spec_step mesh_adj source).getD v 0))
      (by rw [List.length_set]; exact hsm)
      (fun w hw => hvs w (List.mem_cons_of_mem v hw))
    refine ⟨out, ?_, hlen, ?_⟩
    · have hspecv' := hspecv.symm
      simp only [smooth_pass_go, smooth_vertex_sum, hsrcv, hadjv, hsum, hspecv', hsetv]
      exact hout
    · intro i
      rw [hchar i]
      rcases eq_or_ne i v with heq | hne
      · subst heq
        rw [if_pos (List.mem_cons_self i vs)]
        by_cases hmem : i ∈ vs
        · rw [if_pos hmem]
        · rw [if_neg hmem, List.get?_eq_getElem?, List.getElem?_set_self (by omega)]
      · by_cases hmem : i ∈ vs
        · rw [if_pos hmem, if_pos (List.mem_cons_of_mem v hmem)]
        · have hnotc : i ∉ v :: vs := by simp [hne, hmem]
          rw [if_neg hmem, if_neg hnotc, List.get?_eq_getElem?,
            List.getElem?_set_ne (by omega), ← List.get?_eq_getElem?]

theorem smooth_spec_step_length {α : Type} [Add α] [Div α] [NatCast α] [Zero α]
    (mesh_adj : List (List Nat)) (old : List α) :
    (smooth_spec_step mesh_adj old).length = mesh_adj.length := by
  unfold smooth_spec_step
  rw [List.length_map, List.length_range]

theorem smooth_pass_spec {α : Type} [Add α] [Div α] [NatCast α] [Zero α]
    (mesh_adj : List (List Nat)) (source sm : List α)
    (hsrc : mesh_adj.length = source.length)
    (hnb : ∀ neigh ∈ mesh_adj, ∀ u ∈ neigh, u < source.length)
    (hsm : sm.length = mesh_adj.length) :
    smooth_pass mesh_adj source sm = some (smooth_spec_step mesh_adj source) := by
  obtain ⟨out, hout, hlen, hchar⟩ := smooth_pass_go_spec source mesh_adj hsrc hnb
    (List.range mesh_adj.length) sm hsm (fun v hv => List.mem_range.mp hv)
  unfold smooth_pass
  rw [hout]
  congr 1
  apply List.ext_get?
  intro i
  rw [hchar i]
  by_cases hi : i < mesh_adj.length
  · rw [if_pos (List.mem_range.mpr hi)]
    have hlen2 : i < (smooth_spec_step mesh_adj source).length := by
      rw [smooth_spec_step_length]
      exact hi
    simp [List.getD_eq_getElem?_getD, List.get?_eq_getElem?,
      List.getElem?_eq_getElem hlen2]
  · rw [if_neg (fun hc => hi (List.mem_range.mp hc))]
    have h1 : sm.get? i = none := by
      rw [List.get?_eq_getElem?]
      exact List.getElem?_eq_none (by omega)
    have h2 : (smooth_spec_step mesh_adj source).get? i = none := by
      rw [List.get?_eq_getElem?]
      apply List.getElem?_eq_none
      rw [smooth_spec_step_length]
      omega
    rw [h1, h2]

/-- C4: for an adjacency list matching the field's length, in-range neighbor
indices and `num_iter ≥ 1`, the static `smooth_pvd_nn` returns exactly the
spec's lock-step unnormalized update iterated `num_iter` times (each
iteration reading only the previous iteration's values), with the output
having the input's length. The carrier `α` is arbitrary — in particular the
theorem holds for IEEE-754 float arithmetic, with no normalization
correction. -/
theorem smooth_pvd_nn_spec {α : Type} [Add α] [Div α] [NatCast α] [Zero α]
    (mesh_adj : List (List Nat)) (pvd : List α) (num_iter : Nat)
    (hlen : mesh_adj.length = pvd.length)
    (hnb : ∀ neigh ∈ mesh_adj, ∀ u ∈ neigh, u < pvd.length)
    (hiter : 1 ≤ num_iter) :
    smooth_pvd_nn mesh_adj pvd num_iter
        = some ((smooth_spec_step mesh_adj)^[num_iter] pvd) ∧
      ((smooth_spec_step mesh_adj)^[num_iter] pvd).length = pvd.length := by
  have hstep_len : ∀ old : List α, old.length = pvd.length →
      (smooth_spec_step mesh_adj old).length = pvd.length := by
    intro old _
    rw [smooth_spec_step_length, hlen]
  have hiter_len : ∀ (k : Nat) (old : List α), old.length = pvd.length →
      ((smooth_spec_step mesh_adj)^[k] old).length = pvd.length := by
    intro k
    induction k with
    | zero => intro old h; simpa using h
    | succ k ihk =>
      intro old h
      rw [Function.iterate_succ_apply]
      exact ihk _ (hstep_len old h)
  have hmain : ∀ (r : Nat) (source sm : List α), source.length = pvd.length →
      sm.length = mesh_adj.length →
      smooth_go mesh_adj (r + 1) source sm
        = some ((smooth_spec_step mesh_adj)^[r + 1] source) := by
    intro r
    induction r with
    | zero =>
      intro source sm hs hsm
      have := smooth_pass_spec mesh_adj source sm (by omega)
        (fun neigh hn u hu => by rw [hs]; exact hnb neigh hn u hu) hsm
      unfold smooth_go
      rw [this, Function.iterate_one]
    | succ r ihr =>
      intro source sm hs hsm
      have hpass := smooth_pass_spec mesh_adj source sm (by omega)
        (fun neigh hn u hu => by rw [hs]; exact hnb neigh hn u hu) hsm
      have hslen : (smooth_spec_step mesh_adj source).length = pvd.length :=
        hstep_len source hs
      have hrec := ihr (smooth_spec_step mesh_adj source)
        (smooth_spec_step mesh_adj source) hslen (by rw [hslen, hlen])
      show (do
        let sm ← smooth_pass mesh_adj source sm
        smooth_go mesh_adj (r + 1) sm sm)
          = some ((smooth_spec_step mesh_adj)^[r + 2] source)
      rw [hpass]
      simp only [Option.bind_eq_bind, Option.some_bind]
      rw [hrec, ← Function.iterate_succ_apply]
  obtain ⟨r, hr⟩ : ∃ r, num_iter = r + 1 := ⟨num_iter - 1, by omega⟩
  subst hr
  constructor
  · unfold smooth_pvd_nn
    exact hmain r pvd (List.replicate pvd.length 0) rfl
      (by rw [List.length_replicate, hlen])
  · exact hiter_len (r + 1) pvd rfl

/-- Witness for `smooth_pvd_nn_spec`: a 2-vertex path graph over ℚ with one
iteration. -/
theorem smooth_pvd_nn_spec_witness :
    smooth_pvd_nn [[1], [0]] [(1 : ℚ), 3] 1
        = some ((smooth_spec_step [[1], [0]])^[1] [(1 : ℚ), 3]) ∧
      ((smooth_spec_step [[1], [0]])^[1] [(1 : ℚ), 3]).length = [(1 : ℚ), 3].length :=
  smooth_pvd_nn_spec [[1], [0]] [(1 : ℚ), 3] 1 rfl (by decide) (by norm_num)

/-! ## MGH codec: `fs::read_mgh_header`, `fs::_read_mgh_data`, `fs::write_mgh` -/

/-- `fs::MghHeader`. Float-valued fields (`xsize`..`Pxyz_c`) carry 32-bit
patterns; fields the C++ leaves unassigned when `ras_good_flag ≠ 1` default
to zero / empty here. -/
structure MghHeader where
  dim1length : Int := 0
  dim2length : Int := 0
  dim3length : Int := 0
  dim4length : Int := 0
  dtype : Int := 0
  dof : Int := 0
  ras_good_flag : Int := 0
  xsize : Nat := 0
  ysize : Nat := 0
  zsize : Nat := 0
  Mdc : List Nat := []
  Pxyz_c : List Nat := []
  deriving Repr, DecidableEq

/-- `fs::MghHeader::num_values`:
`(size_t) dim1length * dim2length * dim3length * dim4length`, i.e. the four
`int32_t` dimensions converted to `size_t` and multiplied with 64-bit
wraparound. -/
def num_values (h : MghHeader) : Nat :=
  (szt h.dim1length * szt h.dim2length * szt h.dim3length * szt h.dim4length) % 2 ^ 64

/-- `fs::MghData`: four typed arrays, at most one populated. -/
structure MghData where
  data_mri_int : List Int := []
  data_mri_uchar : List Nat := []
  data_mri_float : List Nat := []
  data_mri_short : List Int := []
  deriving Repr, DecidableEq

/-- `fs::Mgh`. -/
structure Mgh where
  header : MghHeader := {}
  data : MghData := {}
  deriving Repr, DecidableEq

inductive MghError where
  | unsupportedVersion
  | unsupportedDtype
  | truncated
  deriving Repr, DecidableEq

/-- Loop reading `k` consecutive big-endian values of `w` bytes each
(the payload loops of `fs::_read_mgh_data<T>`), kept as unsigned words. -/
def readWords (w : Nat) : Nat → List Nat → Option (List Nat × List Nat)
  | 0, s => some ([], s)
  | k + 1, s => do
    let (v, s1) ← readU w s
    let (vs, r) ← readWords w k s1
    pure (v :: vs, r)

/-- The `while(unused_header_space_size_left > 0)` loop of
`fs::read_mgh_header`: consume (not seek past) `k` single bytes. -/
def discardBytes : Nat → List Nat → Option (List Nat)
  | 0, s => some s
  | k + 1, s => do
    let (_, s1) ← readU 1 s
    discardBytes k s1

theorem readWords_rest {w k : Nat} : ∀ {s r : List Nat} {vs : List Nat},
    readWords w k s = some (vs, r) → r = s.drop (w * k) := by
  induction k with
  | zero =>
    intro s r vs h
    unfold readWords at h
    simp only [Option.some.injEq, Prod.mk.injEq] at h
    rw [← h.2]
    simp
  | succ k ih =>
    intro s r vs h
    unfold readWords at h
    simp only [Option.bind_eq_bind, Option.bind_eq_some, Option.pure_def,
      Option.some.injEq] at h
    obtain ⟨⟨v, s1⟩, h1, ⟨vs', r'⟩, h2, h3⟩ := h
    obtain ⟨hs1, _⟩ := readU_rest h1
    have hr' := ih h2
    have hreq : r = r' := by
      have := h3
      simp only [Prod.mk.injEq] at this
      exact this.2.symm
    rw [hreq, hr', hs1, List.drop_drop]
    congr 1
    ring

theorem discardBytes_rest {k : Nat} : ∀ {s r : List Nat},
    discardBytes k s = some r → r = s.drop k := by
  induction k with
  | zero =>
    intro s r h
    unfold discardBytes at h
    simp only [Option.some.injEq] at h
    rw [← h]
    simp
  | succ k ih =>
    intro s r h
    unfold discardBytes at h
    simp only [Option.bind_eq_bind, Option.bind_eq_some] at h
    obtain ⟨⟨v, s1⟩, h1, h2⟩ := h
    obtain ⟨hs1, _⟩ := readU_rest h1
    have hr := ih h2
    rw [hr, hs1, List.drop_drop]
    congr 1
    omega

/-- The `ras_good_flag == 1` branch of `fs::read_mgh_header`: voxel sizes,
the 9 `Mdc` floats, the 3 `Pxyz_c` floats, then the discard loop over the
remaining `256 - 2 - 60 = 194` padding bytes. -/
def _read_mgh_header_ras (d1 d2 d3 d4 dt dof ras : Int) (s8 : List Nat) :
    Option (MghHeader × List Nat) := do
  let (xs, s9) ← readU 4 s8
  let (ys, s10) ← readU 4 s9
  let (zs, s11) ← readU 4 s10
  let (mdc, s12) ← readWords 4 9 s11
  let (pxyz, s13) ← readWords 4 3 s12
  let r ← discardBytes 194 s13
  pure ({ dim1length := d1, dim2length := d2, dim3length := d3, dim4length := d4,
          dtype := dt, dof := dof, ras_good_flag := ras,
          xsize := xs, ysize := ys, zsize := zs, Mdc := mdc, Pxyz_c := pxyz }, r)

/-- The `ras_good_flag != 1` branch of `fs::read_mgh_header`: only the
discard loop over the remaining `256 - 2 = 254` padding bytes. -/
def _read_mgh_header_noras (d1 d2 d3 d4 dt dof ras : Int) (s8 : List Nat) :
    Option (MghHeader × List Nat) := do
  let r ← discardBytes 254 s8
  pure ({ dim1length := d1, dim2length := d2, dim3length := d3, dim4length := d4,
          dtype := dt, dof := dof, ras_good_flag := ras }, r)

/-- Body of `fs::read_mgh_header` after the format-version gate: dimensions,
dtype, dof, `ras_good_flag`, then the optional RAS block and the
byte-by-byte discard of the rest of the 284-byte header region. -/
def _read_mgh_header_body (s1 : List Nat) : Option (MghHeader × List Nat) := do
  let (d1, s2) ← readI32 s1
  let (d2, s3) ← readI32 s2
  let (d3, s4) ← readI32 s3
  let (d4, s5) ← readI32 s4
  let (dt, s6) ← readI32 s5
  let (dof, s7) ← readI32 s6
  let (ras, s8) ← readI16 s7
  if ras = 1 then _read_mgh_header_ras d1 d2 d3 d4 dt dof ras s8
  else _read_mgh_header_noras d1 d2 d3 d4 dt dof ras s8

/-- `fs::read_mgh_header(MghHeader*, std::istream*)`: check the 32-bit
format version equals 1, then parse the fixed 284-byte header region,
consuming its padding byte by byte (no seeking). -/
def read_mgh_header (s : List Nat) : Except MghError (MghHeader × List Nat) :=
  match readI32 s with
  | none => .error .truncated
  | some (version, s1) =>
    if version ≠ 1 then .error .unsupportedVersion
    else match _read_mgh_header_body s1 with
      | none => .error .truncated
      | some (hdr, r) => .ok (hdr, r)

theorem _read_mgh_header_ras_rest {d1 d2 d3 d4 dt dof ras : Int}
    {s8 : List Nat} {hdr : MghHeader} {r : List Nat}
    (h : _read_mgh_header_ras d1 d2 d3 d4 dt dof ras s8 = some (hdr, r)) :
    r = s8.drop 254 := by
  unfold _read_mgh_header_ras at h
  simp only [Option.bind_eq_bind, Option.bind_eq_some, Option.pure_def,
    Option.some.injEq] at h
  obtain ⟨⟨xs, s9⟩, hx, ⟨ys, s10⟩, hy, ⟨zs, s11⟩, hz,
    ⟨mdc, s12⟩, hm, ⟨pxyz, s13⟩, hp, rr, hq, hfin⟩ := h
  obtain ⟨f1, _⟩ := readU_rest hx
  obtain ⟨f2, _⟩ := readU_rest hy
  obtain ⟨f3, _⟩ := readU_rest hz
  have f4 := readWords_rest hm
  have f5 := readWords_rest hp
  have f6 := discardBytes_rest hq
  have hreq : r = rr := by
    simp only [Prod.mk.injEq] at hfin
    exact hfin.2.symm
  rw [hreq, f6, f5, f4, f3, f2, f1]
  simp only [List.drop_drop]

theorem _read_mgh_header_noras_rest {d1 d2 d3 d4 dt dof ras : Int}
    {s8 : List Nat} {hdr : MghHeader} {r : List Nat}
    (h : _read_mgh_header_noras d1 d2 d3 d4 dt dof ras s8 = some (hdr, r)) :
    r = s8.drop 254 := by
  unfold _read_mgh_header_noras at h
  simp only [Option.bind_eq_bind, Option.bind_eq_some, Option.pure_def,
    Option.some.injEq] at h
  obtain ⟨rr, hq, hfin⟩ := h
  have f6 := discardBytes_rest hq
  have hreq : r = rr := by
    simp only [Prod.mk.injEq] at hfin
    exact hfin.2.symm
  rw [hreq, f6]

theorem _read_mgh_header_body_rest {s1 : List Nat} {hdr : MghHeader} {r : List Nat}
    (h : _read_mgh_header_body s1 = some (hdr, r)) : r = s1.drop 280 := by
  unfold _read_mgh_header_body at h
  simp only [Option.bind_eq_bind, Option.bind_eq_some, Option.pure_def,
    Option.some.injEq] at h
  obtain ⟨⟨d1, s2⟩, h1, ⟨d2, s3⟩, h2, ⟨d3, s4⟩, h3, ⟨d4, s5⟩, h4,
    ⟨dt, s6⟩, h5, ⟨dof, s7⟩, h6, ⟨ras, s8⟩, h7, hrest⟩ := h
  obtain ⟨e1, _⟩ := readI32_rest h1
  obtain ⟨e2, _⟩ := readI32_rest h2
  obtain ⟨e3, _⟩ := readI32_rest h3
  obtain ⟨e4, _⟩ := readI32_rest h4
  obtain ⟨e5, _⟩ := readI32_rest h5
  obtain ⟨e6, _⟩ := readI32_rest h6
  obtain ⟨e7, _⟩ := readI16_rest h7
  have hs8 : s8 = s1.drop 26 := by
    rw [e7, e6, e5, e4, e3, e2, e1]
    simp only [List.drop_drop]
  have hr254 : r = s8.drop 254 := by
    split at hrest
    · exact _read_mgh_header_ras_rest hrest
    · exact _read_mgh_header_noras_rest hrest
  rw [hr254, hs8, List.drop_drop]

theorem read_mgh_header_rest {s : List Nat} {hdr : MghHeader} {rest : List Nat}
    (h : read_mgh_header s = .ok (hdr, rest)) : rest = s.drop 284 := by
  unfold read_mgh_header at h
  cases h1 : readI32 s with
  | none => rw [h1] at h; exact absurd h (by simp)
  | some p =>
    obtain ⟨version, s1⟩ := p
    rw [h1] at h
    obtain ⟨e1, _⟩ := readI32_rest h1
    simp only [ne_eq] at h
    by_cases hv : version = 1
    · rw [if_neg (by simp [hv])] at h
      cases h2 : _read_mgh_header_body s1 with
      | none =>
        rw [h2] at h
        exact absurd h (by simp)
      | some q =>
        obtain ⟨hdr', r⟩ := q
        rw [h2] at h
        simp only [Except.ok.injEq, Prod.mk.injEq] at h
        have hbody := _read_mgh_header_body_rest h2
        rw [← h.2, hbody, e1, List.drop_drop]
    · rw [if_pos (by simp [hv])] at h
      exact absurd h (by simp)

/-- Number of payload values actually read by `fs::_read_mgh_data<T>`:
`int num_values = mgh_header->num_values();` narrows the `size_t` product to
`int32_t`, and the read loop `for(int i=0; i<num_values; i++)` runs
`max 0 num_values` times. -/
def _read_mgh_data_nvals (h : MghHeader) : Nat :=
  (asIntSigned 32 (num_values h % 2 ^ 32)).toNat

/-- Payload dispatch of `fs::read_mgh`: `MRI_INT`(1), `MRI_UCHAR`(0),
`MRI_FLOAT`(3), `MRI_SHORT`(4) in source order; any other `dtype` fails. -/
def _read_mgh_data_payload (hdr : MghHeader) (s : List Nat) : Except MghError MghData :=
  let n := _read_mgh_data_nvals hdr
  if hdr.dtype = 1 then
    match readWords 4 n s with
    | none => .error .truncated
    | some (ws, _) => .ok { data_mri_int := ws.map (asIntSigned 32) }
  else if hdr.dtype = 0 then
    match readWords 1 n s with
    | none => .error .truncated
    | some (ws, _) => .ok { data_mri_uchar := ws }
  else if hdr.dtype = 3 then
    match readWords 4 n s with
    | none => .error .truncated
    | some (ws, _) => .ok { data_mri_float := ws }
  else if hdr.dtype = 4 then
    match readWords 2 n s with
    | none => .error .truncated
    | some (ws, _) => .ok { data_mri_short := ws.map (asIntSigned 16) }
  else .error .unsupportedDtype

/-- `fs::read_mgh(Mgh*, std::istream*)`: the pure-sequential entry point —
the header parse consumes the padding byte by byte and the payload is read
from the stream position so reached. -/
def read_mgh (s : List Nat) : Except MghError (MghHeader × MghData) :=
  match read_mgh_header s with
  | .error e => .error e
  | .ok (hdr, rest) =>
    match _read_mgh_data_payload hdr rest with
    | .error e => .error e
    | .ok d => .ok (hdr, d)

/-- `fs::read_mgh(Mgh*, const std::string&)`: the random-access entry point —
the header is parsed from the start of the file, then
`fs::_read_mgh_data<T>` re-opens the file and `seekg(284)` directly to the
payload. -/
def read_mgh_file (s : List Nat) : Except MghError (MghHeader × MghData) :=
  match read_mgh_header s with
  | .error e => .error e
  | .ok (hdr, _) =>
    match _read_mgh_data_payload hdr (s.drop 284) with
    | .error e => .error e
    | .ok d => .ok (hdr, d)

/-- C5: whenever the MGH header parses (in particular for every valid MGH
byte sequence), the sequential header parse stops exactly 284 bytes into the
stream, so the random-access entry point (seek to 284) and the sequential
entry point produce identical results: the same header field values and the
same payload data. -/
theorem read_mgh_seek_eq_stream (s : List Nat) (hdr : MghHeader) (rest : List Nat)
    (h : read_mgh_header s = .ok (hdr, rest)) :
    rest = s.drop 284 ∧ read_mgh_file s = read_mgh s := by
  have hrest : rest = s.drop 284 := read_mgh_header_rest h
  refine ⟨hrest, ?_⟩
  unfold read_mgh_file read_mgh
  rw [h, ← hrest]

set_option maxRecDepth 8192 in
/-- Witness for `read_mgh_seek_eq_stream`: a minimal 285-byte MGH file with
dims 1×1×1×1, dtype `MRI_UCHAR`, `ras_good_flag = 0` and a 1-byte payload. -/
theorem read_mgh_seek_eq_stream_witness :
    ([7] : List Nat)
        = (writeI32 1 ++ writeI32 1 ++ writeI32 1 ++ writeI32 1 ++ writeI32 1
            ++ writeI32 0 ++ writeI32 0 ++ writeI16 0 ++ List.replicate 254 0
            ++ [7]).drop 284 ∧
      read_mgh_file (writeI32 1 ++ writeI32 1 ++ writeI32 1 ++ writeI32 1 ++ writeI32 1
            ++ writeI32 0 ++ writeI32 0 ++ writeI16 0 ++ List.replicate 254 0 ++ [7])
        = read_mgh (writeI32 1 ++ writeI32 1 ++ writeI32 1 ++ writeI32 1 ++ writeI32 1
            ++ writeI32 0 ++ writeI32 0 ++ writeI16 0 ++ List.replicate 254 0 ++ [7]) :=
  read_mgh_seek_eq_stream _
    { dim1length := 1, dim2length := 1, dim3length := 1, dim4length := 1,
      dtype := 0, dof := 0, ras_good_flag := 0 } [7] (by decide)

/-! ## `fs::write_mgh` (ostream overload) -/

inductive MghWriteError where
  | sizeMismatch
  | unsupportedDtype
  deriving Repr, DecidableEq

/-- The fixed 284-byte header region emitted by `fs::write_mgh` before the
payload: version, dims, dtype, dof, `ras_good_flag`, the RAS block when the
flag is 1, and zero-padding. The C++ reads `Mdc[i]`/`Pxyz_c[i]` with an
unchecked `operator[]`; the embedding reads a zero default in the
out-of-bounds case (which affects emitted byte values only, never control
flow). -/
def mghHeaderBytes (h : MghHeader) : List Nat :=
  writeI32 1 ++ writeI32 h.dim1length ++ writeI32 h.dim2length ++ writeI32 h.dim3length
    ++ writeI32 h.dim4length ++ writeI32 h.dtype ++ writeI32 h.dof
    ++ writeI16 h.ras_good_flag
    ++ (if h.ras_good_flag = 1 then
          writeF32 h.xsize ++ writeF32 h.ysize ++ writeF32 h.zsize
            ++ (List.range 9).flatMap (fun i => writeF32 (h.Mdc.getD i 0))
            ++ (List.range 3).flatMap (fun i => writeF32 (h.Pxyz_c.getD i 0))
            ++ List.replicate 194 0
        else List.replicate 254 0)

/-- `fs::write_mgh(const Mgh&, std::ostream&)`: emit the header region, then
check the typed array selected by `dtype` (`MRI_INT`, `MRI_FLOAT`,
`MRI_UCHAR`, `MRI_SHORT` in source order) against
`mgh.header.num_values()` **before** emitting any payload value; a length
mismatch throws `std::logic_error`, an unknown dtype throws
`std::domain_error`. The result is the bytes written so far plus the error,
if any. -/
def write_mgh (mgh : Mgh) : List Nat × Option MghWriteError :=
  let hdr := mghHeaderBytes mgh.header
  let n := num_values mgh.header
  if mgh.header.dtype = 1 then
    if mgh.data.data_mri_int.length ≠ n then (hdr, some .sizeMismatch)
    else (hdr ++ mgh.data.data_mri_int.flatMap writeI32, none)
  else if mgh.header.dtype = 3 then
    if mgh.data.data_mri_float.length ≠ n then (hdr, some .sizeMismatch)
    else (hdr ++ mgh.data.data_mri_float.flatMap writeF32, none)
  else if mgh.header.dtype = 0 then
    if mgh.data.data_mri_uchar.length ≠ n then (hdr, some .sizeMismatch)
    else (hdr ++ mgh.data.data_mri_uchar.flatMap (fun b => [b % 256]), none)
  else if mgh.header.dtype = 4 then
    if mgh.data.data_mri_short.length ≠ n then (hdr, some .sizeMismatch)
    else (hdr ++ mgh.data.data_mri_short.flatMap writeI16, none)
  else (hdr, some .unsupportedDtype)

theorem length_flatMap_const {β : Type} (l : List β) (f : β → List Nat) (c : Nat)
    (h : ∀ x ∈ l, (f x).length = c) : (l.flatMap f).length = c * l.length := by
  induction l with
  | nil => simp
  | cons x xs ih =>
    rw [List.flatMap_cons, List.length_append, h x (List.mem_cons_self x xs),
      ih (fun y hy => h y (List.mem_cons_of_mem x hy))]
    simp [Nat.mul_succ]
    ring

theorem mghHeaderBytes_length (h : MghHeader) : (mghHeaderBytes h).length = 284 := by
  have h32 : ∀ v : Int, (writeI32 v).length = 4 := fun v => natToBytesBE_length 4 _
  have h16 : ∀ v : Int, (writeI16 v).length = 2 := fun v => natToBytesBE_length 2 _
  have hf32 : ∀ w : Nat, (writeF32 w).length = 4 := fun w => natToBytesBE_length 4 _
  have hm : ((List.range 9).flatMap (fun i => writeF32 (h.Mdc.getD i 0))).length = 36 :=
    length_flatMap_const _ _ 4 (fun x _ => hf32 _)
  have hp : ((List.range 3).flatMap (fun i => writeF32 (h.Pxyz_c.getD i 0))).length = 12 :=
    length_flatMap_const _ _ 4 (fun x _ => hf32 _)
  unfold mghHeaderBytes
  by_cases hras : h.ras_good_flag = 1
  · rw [if_pos hras]
    simp only [List.length_append, h32, h16, hf32, hm, hp, List.length_replicate]
  · rw [if_neg hras]
    simp only [List.length_append, h32, h16, List.length_replicate]

/-- C7: for every Mgh whose header dtype is one of the four supported kinds
but whose corresponding typed array's length differs from
`dim1·dim2·dim3·dim4`, `write_mgh` fails with the logic error having emitted
the 284-byte header region only — no payload value reaches the output
stream. -/
theorem write_mgh_size_mismatch (mgh : Mgh)
    (h : (mgh.header.dtype = 0 ∧ mgh.data.data_mri_uchar.length ≠ num_values mgh.header)
       ∨ (mgh.header.dtype = 1 ∧ mgh.data.data_mri_int.length ≠ num_values mgh.header)
       ∨ (mgh.header.dtype = 3 ∧ mgh.data.data_mri_float.length ≠ num_values mgh.header)
       ∨ (mgh.header.dtype = 4 ∧ mgh.data.data_mri_short.length ≠ num_values mgh.header)) :
    write_mgh mgh = (mghHeaderBytes mgh.header, some MghWriteError.sizeMismatch)
      ∧ (write_mgh mgh).1.length = 284 := by
  have hout : write_mgh mgh = (mghHeaderBytes mgh.header, some MghWriteError.sizeMismatch) := by
    rcases h with ⟨hd, hne⟩ | ⟨hd, hne⟩ | ⟨hd, hne⟩ | ⟨hd, hne⟩ <;>
      simp only [write_mgh, hd, hne, ne_eq, not_false_eq_true, reduceIte,
        Int.reduceEq, ite_true, ite_false]
  exact ⟨hout, by rw [hout]; exact mghHeaderBytes_length _⟩

/-- Witness for `write_mgh_size_mismatch`: dtype `MRI_FLOAT`, dims 1×1×1×2
but a single float in the payload array. -/
theorem write_mgh_size_mismatch_witness :
    write_mgh { header := { dim1length := 1, dim2length := 1, dim3length := 1,
                            dim4length := 2, dtype := 3 },
                data := { data_mri_float := [1078530011] } }
        = (mghHeaderBytes { dim1length := 1, dim2length := 1, dim3length := 1,
                            dim4length := 2, dtype := 3 },
           some MghWriteError.sizeMismatch)
      ∧ (write_mgh { header := { dim1length := 1, dim2length := 1, dim3length := 1,
                                 dim4length := 2, dtype := 3 },
                     data := { data_mri_float := [1078530011] } }).1.length = 284 :=
  write_mgh_size_mismatch _ (by right; right; left; exact ⟨rfl, by decide⟩)

/-! ## Annot codec: `fs::read_annot` (stream overload) and
`fs::_read_annot_colortable` -/

/-- `fs::Colortable`: parallel sequences; `name` entries are byte strings. -/
structure Colortable where
  id : List Int := []
  name : List (List Nat) := []
  r : List Int := []
  g : List Int := []
  b : List Int := []
  a : List Int := []
  label : List Int := []
  deriving Repr, DecidableEq

/-- `fs::Annot`. -/
structure Annot where
  vertex_indices : List Int := []
  vertex_labels : List Int := []
  colortable : Colortable := {}
  deriving Repr, DecidableEq

/-- The distinguishable failures of `fs::read_annot` /
`fs::_read_annot_colortable` (each a distinct `throw` in the source), plus
stream exhaustion. -/
inductive AnnotError where
  | truncated
  | missingColortable
  | oldFormatUnsupported
  | newVersionUnsupported
  | badStringLength
  deriving Repr, DecidableEq

/-- `fs::_freadfixedlengthstring(is, length, strip_last_char=true)`: throws
`std::out_of_range` for a non-positive length, otherwise reads exactly
`length` bytes and strips the last one. -/
def _freadfixedlengthstring (s : List Nat) (length : Int) :
    Except AnnotError (List Nat × List Nat) :=
  if length ≤ 0 then .error .badStringLength
  else match readBytes length.toNat s with
    | none => .error .truncated
    | some (str, rest) => .ok (str.take (length.toNat - 1), rest)

/-- Entry loop of `fs::_read_annot_colortable`: per entry, a 32-bit id, a
32-bit name length, the fixed-length name (last byte stripped), four 32-bit
RGBA channels, and the derived `label = r + g·256 + b·65536 + a·16777216`
(computed in wrapping `int32_t` arithmetic). -/
def _read_annot_colortable_go : Nat → Colortable → List Nat →
    Except AnnotError (Colortable × List Nat)
  | 0, ct, s => .ok (ct, s)
  | k + 1, ct, s =>
    match readI32 s with
    | none => .error .truncated
    | some (idv, s1) =>
      match readI32 s1 with
      | none => .error .truncated
      | some (nameLen, s2) =>
        match _freadfixedlengthstring s2 nameLen with
        | .error e => .error e
        | .ok (nm, s3) =>
          match readI32 s3 with
          | none => .error .truncated
          | some (rv, s4) =>
            match readI32 s4 with
            | none => .error .truncated
            | some (gv, s5) =>
              match readI32 s5 with
              | none => .error .truncated
              | some (bv, s6) =>
                match readI32 s6 with
                | none => .error .truncated
                | some (av, s7) =>
                  _read_annot_colortable_go k
                    { id := ct.id ++ [idv], name := ct.name ++ [nm],
                      r := ct.r ++ [rv], g := ct.g ++ [gv],
                      b := ct.b ++ [bv], a := ct.a ++ [av],
                      label := ct.label
                        ++ [wrap32 (rv + gv * 256 + bv * 65536 + av * 16777216)] } s7

/-- `fs::_read_annot_colortable(Colortable*, std::istream*, int32_t)`:
consume the embedded source-filename length and discard that many bytes,
consume the duplicated entry count (a mismatch only warns), then read
`num_entries` colortable entries. -/
def _read_annot_colortable (num_entries : Int) (s : List Nat) :
    Except AnnotError (Colortable × List Nat) :=
  match readI32 s with
  | none => .error .truncated
  | some (fnameLen, s1) =>
    match discardBytes fnameLen.toNat s1 with
    | none => .error .truncated
    | some s2 =>
      match readI32 s2 with
      | none => .error .truncated
      | some (_dup, s3) => _read_annot_colortable_go num_entries.toNat {} s3

/-- The interleaved `v1,v1_label,v2,v2_label,...` loop of `fs::read_annot`,
reading `k` (vertex, label) 32-bit pairs. -/
def readAnnotPairs : Nat → List Nat → Option (List Int × List Int × List Nat)
  | 0, s => some ([], [], s)
  | k + 1, s => do
    let (v, s1) ← readI32 s
    let (l, s2) ← readI32 s1
    let (vs, ls, rest) ← readAnnotPairs k s2
    pure (v :: vs, l :: ls, rest)

/-- `fs::read_annot` after the vertex/label pairs have been consumed: the
32-bit "has colortable" flag must equal 1; then a 32-bit value `V` — if
`V > 0` the old colortable format is rejected, otherwise `-V` (wrapping
`int32_t` negation) is the format version, of which only 2 is supported;
only then are the real entry count and the colortable consumed. -/
def _read_annot_after_pairs (vs ls : List Int) (s : List Nat) : Except AnnotError Annot :=
  match readI32 s with
  | none => .error .truncated
  | some (has_colortable, s1) =>
    if has_colortable = 1 then
      match readI32 s1 with
      | none => .error .truncated
      | some (v, s2) =>
        if 0 < v then .error .oldFormatUnsupported
        else
          if wrap32 (-v) = 2 then
            match readI32 s2 with
            | none => .error .truncated
            | some (num_ct, s3) =>
              match _read_annot_colortable num_ct s3 with
              | .error e => .error e
              | .ok (ct, _) =>
                .ok { vertex_indices := vs, vertex_labels := ls, colortable := ct }
          else .error .newVersionUnsupported
    else .error .missingColortable

/-- `fs::read_annot(Annot*, std::istream*)`. The pair loop
`for(int32_t i=0; i<(num_vertices*2); i++)` computes its bound in wrapping
`int32_t` arithmetic; the bound is even (a wrapped double stays even), so
the loop reads `bound/2` pairs, none when the bound is non-positive. -/
def read_annot (s : List Nat) : Except AnnotError Annot :=
  match readI32 s with
  | none => .error .truncated
  | some (num_vertices, s1) =>
    match readAnnotPairs ((wrap32 (2 * num_vertices)).toNat / 2) s1 with
    | none => .error .truncated
    | some (vs, ls, s2) => _read_annot_after_pairs vs ls s2

/-- Well-formed byte stream: every entry is an actual byte. -/
def byteWF (s : List Nat) : Prop := ∀ b ∈ s, b < 256

instance byteWF_decidable (s : List Nat) : Decidable (byteWF s) :=
  inferInstanceAs (Decidable (∀ b ∈ s, b < 256))

theorem byteWF_drop {s : List Nat} (hwf : byteWF s) (k : Nat) : byteWF (s.drop k) :=
  fun b hb => hwf b (List.drop_subset k s hb)

theorem bytesToNatBE_lt (l : List Nat) (h : ∀ b ∈ l, b < 256) :
    bytesToNatBE l < 256 ^ l.length := by
  induction l with
  | nil => norm_num [bytesToNatBE]
  | cons x xs ih =>
    have hx : x < 256 := h x (List.mem_cons_self x xs)
    have hxs := ih (fun b hb => h b (List.mem_cons_of_mem x hb))
    have hshift : bytesToNatBE (x :: xs)
        = (0 * 256 + x) * 256 ^ xs.length + bytesToNatBE xs := by
      unfold bytesToNatBE
      rw [List.foldl_cons, foldl_byte_shift]
    rw [hshift, List.length_cons]
    have hstep : (0 * 256 + x) * 256 ^ xs.length + bytesToNatBE xs
        < (x + 1) * 256 ^ xs.length := by
      have := Nat.add_lt_add_left hxs (x * 256 ^ xs.length)
      calc (0 * 256 + x) * 256 ^ xs.length + bytesToNatBE xs
          = x * 256 ^ xs.length + bytesToNatBE xs := by ring_nf
        _ < x * 256 ^ xs.length + 256 ^ xs.length := this
        _ = (x + 1) * 256 ^ xs.length := by ring
    calc (0 * 256 + x) * 256 ^ xs.length + bytesToNatBE xs
        < (x + 1) * 256 ^ xs.length := hstep
      _ ≤ 256 * 256 ^ xs.length := Nat.mul_le_mul_right _ (by omega)
      _ = 256 ^ (xs.length + 1) := by ring

theorem readI32_range {s : List Nat} {v : Int} {r : List Nat} (hwf : byteWF s)
    (h : readI32 s = some (v, r)) : -(2 ^ 31) ≤ v ∧ v < 2 ^ 31 := by
  unfold readI32 readU readBytes at h
  split at h
  · simp only [Option.map_some', Option.some.injEq, Prod.mk.injEq] at h
    have hlen : (s.take 4).length ≤ 4 := by
      rw [List.length_take]
      omega
    have hbytes : ∀ b ∈ s.take 4, b < 256 :=
      fun b hb => hwf b (List.take_subset 4 s hb)
    have hlt : bytesToNatBE (s.take 4) < 2 ^ 32 := by
      have h1 := bytesToNatBE_lt (s.take 4) hbytes
      have h2 : (256 : Nat) ^ (s.take 4).length ≤ 256 ^ 4 :=
        Nat.pow_le_pow_right (by norm_num) hlen
      calc bytesToNatBE (s.take 4) < 256 ^ (s.take 4).length := h1
        _ ≤ 256 ^ 4 := h2
        _ = 2 ^ 32 := by norm_num
    rw [← h.1]
    unfold asIntSigned
    split <;> omega
  · exact absurd h (by simp)

theorem readAnnotPairs_rest {k : Nat} : ∀ {s r : List Nat} {vs ls : List Int},
    readAnnotPairs k s = some (vs, ls, r) → r = s.drop (8 * k) := by
  induction k with
  | zero =>
    intro s r vs ls h
    unfold readAnnotPairs at h
    simp only [Option.some.injEq, Prod.mk.injEq] at h
    rw [← h.2.2]
    simp
  | succ k ih =>
    intro s r vs ls h
    unfold readAnnotPairs at h
    simp only [Option.bind_eq_bind, Option.bind_eq_some, Option.pure_def,
      Option.some.injEq] at h
    obtain ⟨⟨v, s1⟩, h1, ⟨l, s2⟩, h2, ⟨vs', ls', r'⟩, h3, h4⟩ := h
    obtain ⟨e1, _⟩ := readI32_rest h1
    obtain ⟨e2, _⟩ := readI32_rest h2
    have e3 := ih h3
    have hreq : r = r' := by
      simp only [Prod.mk.injEq] at h4
      exact h4.2.2.symm
    rw [hreq, e3, e2, e1, List.drop_drop, List.drop_drop]
    congr 1
    ring

theorem wrap32_neg_ne_two {V : Int} (hge : -(2 ^ 31) ≤ V) (hlt : V < 2 ^ 31)
    (hle : V ≤ 0) (hne : V ≠ -2) : wrap32 (-V) ≠ 2 := by
  unfold wrap32
  have h31 : (2 : Int) ^ 31 = 2147483648 := by norm_num
  have h32 : (2 : Int) ^ 32 = 4294967296 := by norm_num
  rw [h31, h32] at *
  omega

/-- C6: once the vertex/label pairs are consumed, `read_annot` fails with
`missingColortable` exactly when the flag is not 1; with
`oldFormatUnsupported` exactly when the flag is 1 and the next value `V` is
positive; with `newVersionUnsupported` exactly when the flag is 1, `V ≤ 0`
and `V ≠ -2` (i.e. `-V ≠ 2`); and only when the flag is 1 and `V = -2` does
it proceed to consume the real entry count and the colortable. -/
theorem read_annot_colortable_gate (s : List Nat) (hwf : byteWF s)
    (nv : Int) (s1 : List Nat) (h1 : readI32 s = some (nv, s1))
    (vs ls : List Int) (s2 : List Nat)
    (h2 : readAnnotPairs ((wrap32 (2 * nv)).toNat / 2) s1 = some (vs, ls, s2))
    (flag : Int) (s3 : List Nat) (h3 : readI32 s2 = some (flag, s3))
    (V : Int) (s4 : List Nat) (h4 : readI32 s3 = some (V, s4)) :
    (flag ≠ 1 → read_annot s = .error AnnotError.missingColortable)
    ∧ (flag = 1 → 0 < V → read_annot s = .error AnnotError.oldFormatUnsupported)
    ∧ (flag = 1 → V ≤ 0 → V ≠ -2 →
        read_annot s = .error AnnotError.newVersionUnsupported)
    ∧ (flag = 1 → V = -2 →
        read_annot s =
          match readI32 s4 with
          | none => .error AnnotError.truncated
          | some (num_ct, s5) =>
            match _read_annot_colortable num_ct s5 with
            | .error e => .error e
            | .ok (ct, _) =>
              .ok { vertex_indices := vs, vertex_labels := ls, colortable := ct }) := by
  have hread : read_annot s = _read_annot_after_pairs vs ls s2 := by
    unfold read_annot
    simp only [h1, h2]
  have hwf3 : byteWF s3 := by
    obtain ⟨e1, _⟩ := readI32_rest h1
    have e2 := readAnnotPairs_rest h2
    obtain ⟨e3, _⟩ := readI32_rest h3
    rw [e3, e2, e1]
    exact byteWF_drop (byteWF_drop (byteWF_drop hwf 4) _) 4
  obtain ⟨hVge, hVlt⟩ := readI32_range hwf3 h4
  refine ⟨?_, ?_, ?_, ?_⟩
  · intro hne
    rw [hread]
    unfold _read_annot_after_pairs
    simp only [h3, if_neg hne]
  · intro hflag hpos
    rw [hread]
    unfold _read_annot_after_pairs
    simp only [h3, if_pos hflag, h4, if_pos hpos]
  · intro hflag hle hne
    rw [hread]
    unfold _read_annot_after_pairs
    simp only [h3, if_pos hflag, h4, if_neg (not_lt.mpr hle),
      if_neg (wrap32_neg_ne_two hVge hVlt hle hne)]
  · intro hflag hV
    rw [hread]
    unfold _read_annot_after_pairs
    have hw2 : wrap32 (-V) = 2 := by
      rw [hV]
      decide
    simp only [h3, if_pos hflag, h4, if_neg (by omega : ¬ (0 < V)), if_pos hw2]

/-- Witness for `read_annot_colortable_gate`: one vertex with label 5, flag
1, `V = -2`, an empty colortable. -/
theorem read_annot_colortable_gate_witness :
    ((1 : Int) ≠ 1 →
        read_annot (writeI32 1 ++ (writeI32 0 ++ (writeI32 5 ++ (writeI32 1
            ++ (writeI32 (-2) ++ (writeI32 0 ++ (writeI32 0 ++ writeI32 0)))))))
          = .error AnnotError.missingColortable)
    ∧ ((1 : Int) = 1 → (0 : Int) < -2 →
        read_annot (writeI32 1 ++ (writeI32 0 ++ (writeI32 5 ++ (writeI32 1
            ++ (writeI32 (-2) ++ (writeI32 0 ++ (writeI32 0 ++ writeI32 0)))))))
          = .error AnnotError.oldFormatUnsupported)
    ∧ ((1 : Int) = 1 → (-2 : Int) ≤ 0 → (-2 : Int) ≠ -2 →
        read_annot (writeI32 1 ++ (writeI32 0 ++ (writeI32 5 ++ (writeI32 1
            ++ (writeI32 (-2) ++ (writeI32 0 ++ (writeI32 0 ++ writeI32 0)))))))
          = .error AnnotError.newVersionUnsupported)
    ∧ ((1 : Int) = 1 → (-2 : Int) = -2 →
        read_annot (writeI32 1 ++ (writeI32 0 ++ (writeI32 5 ++ (writeI32 1
            ++ (writeI32 (-2) ++ (writeI32 0 ++ (writeI32 0 ++ writeI32 0)))))))
          = match readI32 (writeI32 0 ++ (writeI32 0 ++ writeI32 0)) with
            | none => .error AnnotError.truncated
            | some (num_ct, s5) =>
              match _read_annot_colortable num_ct s5 with
              | .error e => .error e
              | .ok (ct, _) =>
                .ok { vertex_indices := [0], vertex_labels := [5],
                      colortable := ct }) :=
  read_annot_colortable_gate
    (writeI32 1 ++ (writeI32 0 ++ (writeI32 5 ++ (writeI32 1
      ++ (writeI32 (-2) ++ (writeI32 0 ++ (writeI32 0 ++ writeI32 0)))))))
    (by decide)
    1 (writeI32 0 ++ (writeI32 5 ++ (writeI32 1 ++ (writeI32 (-2)
      ++ (writeI32 0 ++ (writeI32 0 ++ writeI32 0)))))) (by decide)
    [0] [5] (writeI32 1 ++ (writeI32 (-2) ++ (writeI32 0 ++ (writeI32 0 ++ writeI32 0))))
    (by decide)
    1 (writeI32 (-2) ++ (writeI32 0 ++ (writeI32 0 ++ writeI32 0))) (by decide)
    (-2) (writeI32 0 ++ (writeI32 0 ++ writeI32 0)) (by decide)

/-! ## Submesh restoration: `fs::Mesh::curv_data_for_orig_mesh` -/

/-- The 32-bit pattern of a quiet IEEE-754 float NaN, the fill value for
vertices absent from the submesh mapping. -/
def nanf32 : Nat := 0x7FC00000

/-- Modelled from the spec: `fs::Mesh::curv_data_for_orig_mesh` is called by
the test suite (`libfs_tests.cpp:306`) but its definition is not present
under `src/include/libfs.h`. Per the spec: given a per-vertex field over a
submesh, the original→submesh index mapping (an
`std::unordered_map<int32_t, int32_t>`, modelled as an association list
with unique keys), and the original mesh's vertex count, produce a
full-length field where positions present in the mapping receive the
submesh's value and all other positions receive NaN. -/
def curv_data_for_orig_mesh (pvd_submesh : List Nat)
    (mapping : List (Int × Int)) (orig_num_verts : Nat) : List Nat :=
  (List.range orig_num_verts).map (fun (v : Nat) =>
    match List.lookup ((v : Nat) : Int) mapping with
    | some sub => pvd_submesh.getD sub.toNat nanf32
    | none => nanf32)

/-- C8: the restored field has the original mesh's vertex count; every
position present in the mapping holds the submesh field's value for that
vertex, and every position absent from the mapping holds NaN. -/
theorem curv_data_for_orig_mesh_spec (pvd_submesh : List Nat)
    (mapping : List (Int × Int)) (orig_num_verts : Nat) :
    (curv_data_for_orig_mesh pvd_submesh mapping orig_num_verts).length
        = orig_num_verts
      ∧ (∀ v, v < orig_num_verts →
          (∀ sub, List.lookup (v : Int) mapping = some sub →
            sub.toNat < pvd_submesh.length →
            (curv_data_for_orig_mesh pvd_submesh mapping orig_num_verts).getD v 0
              = pvd_submesh.getD sub.toNat 0)
          ∧ (List.lookup (v : Int) mapping = none →
            (curv_data_for_orig_mesh pvd_submesh mapping orig_num_verts).getD v 0
              = nanf32)) := by
  have hget : ∀ v, v < orig_num_verts →
      (curv_data_for_orig_mesh pvd_submesh mapping orig_num_verts).getD v 0
        = match List.lookup (v : Int) mapping with
          | some sub => pvd_submesh.getD sub.toNat nanf32
          | none => nanf32 := by
    intro v hv
    unfold curv_data_for_orig_mesh
    rw [List.getD_eq_getElem?_getD, List.getElem?_map, List.getElem?_range hv]
    rfl
  refine ⟨?_, ?_⟩
  · unfold curv_data_for_orig_mesh
    rw [List.length_map, List.length_range]
  · intro v hv
    refine ⟨?_, ?_⟩
    · intro sub hsub hlt
      rw [hget v hv, hsub]
      simp only
      rw [List.getD_eq_getElem?_getD, List.getD_eq_getElem?_getD,
        List.getElem?_eq_getElem hlt]
      rfl
    · intro hnone
      rw [hget v hv, hnone]

/-- Witness for `curv_data_for_orig_mesh_spec`: a 2-vertex submesh restored
onto a 3-vertex mesh, vertex 1 absent from the mapping. -/
theorem curv_data_for_orig_mesh_spec_witness :
    (curv_data_for_orig_mesh [11, 22] [((0 : Int), (0 : Int)), (2, 1)] 3).length = 3
      ∧ (∀ v : Nat, v < 3 →
          (∀ sub, List.lookup (v : Int) [((0 : Int), (0 : Int)), (2, 1)] = some sub →
            sub.toNat < [11, 22].length →
            (curv_data_for_orig_mesh [11, 22] [((0 : Int), (0 : Int)), (2, 1)] 3).getD v 0
              = [11, 22].getD sub.toNat 0)
          ∧ (List.lookup (v : Int) [((0 : Int), (0 : Int)), (2, 1)] = none →
            (curv_data_for_orig_mesh [11, 22] [((0 : Int), (0 : Int)), (2, 1)] 3).getD v 0
              = nanf32)) :=
  curv_data_for_orig_mesh_spec [11, 22] [((0 : Int), (0 : Int)), (2, 1)] 3

/-! ## Mesh adjacency: `fs::Mesh::as_adjmatrix`, `fs::Mesh::as_edgelist`,
`fs::Mesh::as_adjlist`, `fs::Mesh::_as_adjlist_via_edgeset` -/

/-- `fs::Mesh`: flat coordinate floats (as bit patterns) and flat `int`
face-vertex indices, three per face. -/
structure Mesh where
  vertices : List Nat := []
  faces : List Int := []
  deriving Repr, DecidableEq

/-- `fs::Mesh::num_vertices()`: `this->vertices.size() / 3`. -/
def Mesh.num_vertices (m : Mesh) : Nat := m.vertices.length / 3

/-- The face chunking `for(size_t fidx=0; fidx<faces.size(); fidx+=3)`
reading `faces[fidx]`, `faces[fidx+1]`, `faces[fidx+2]`; a trailing partial
chunk would read out of bounds (modelled as failure). -/
def facesTriples : List Int → Option (List (Int × Int × Int))
  | [] => some []
  | a :: b :: c :: rest => (facesTriples rest).map (fun ts => (a, b, c) :: ts)
  | _ => none

/-- Total read of entry `(i, j)` of the boolean matrix (used by the double
loop of `as_adjlist`, whose indices are in range by construction). -/
def get2 (m : List (List Bool)) (i j : Nat) : Bool := (m.getD i []).getD j false

/-- The unchecked write `adjm[i][j] = true` with the `int` indices converted
to `size_t` by `operator[]`; an out-of-bounds index is undefined behaviour,
modelled as failure. -/
def set2 (m : List (List Bool)) (i j : Int) : Option (List (List Bool)) :=
  match m.get? (szt i) with
  | none => none
  | some row =>
    if szt j < row.length then some (m.set (szt i) (row.set (szt j) true))
    else none

/-- The six `adjm[...][...] = true` writes of `fs::Mesh::as_adjmatrix` for
one face `(a, b, c)`, in source order:
`(a,b),(b,a),(b,c),(c,b),(c,a),(a,c)`. -/
def addFaceEdgesM (m : List (List Bool)) (t : Int × Int × Int) :
    Option (List (List Bool)) := do
  let m1 ← set2 m t.1 t.2.1
  let m2 ← set2 m1 t.2.1 t.1
  let m3 ← set2 m2 t.2.1 t.2.2
  let m4 ← set2 m3 t.2.2 t.2.1
  let m5 ← set2 m4 t.2.2 t.1
  set2 m5 t.1 t.2.2

/-- `fs::Mesh::as_adjmatrix`: an `n×n` all-false matrix, then the six writes
per face. -/
def Mesh.as_adjmatrix (mesh : Mesh) : Option (List (List Bool)) := do
  let ts ← facesTriples mesh.faces
  ts.foldlM addFaceEdgesM
    (List.replicate mesh.num_vertices (List.replicate mesh.num_vertices false))

/-- `std::unordered_set<std::tuple<size_t,size_t>>::insert`: the edge set is
modelled as a duplicate-free list in insertion order (the C++ set's
iteration order is unspecified; every statement proved below is
order-independent). -/
def esInsert (es : List (Nat × Nat)) (e : Nat × Nat) : List (Nat × Nat) :=
  if e ∈ es then es else es ++ [e]

/-- The six inserts of `fs::Mesh::as_edgelist` for one face, in source order
`(a,b),(b,a),(b,c),(c,b),(a,c),(c,a)`, with the `int` indices converted to
`size_t` by `std::make_tuple`. -/
def addFaceEdgesE (es : List (Nat × Nat)) (t : Int × Int × Int) : List (Nat × Nat) :=
  esInsert (esInsert (esInsert (esInsert (esInsert (esInsert es
    (szt t.1, szt t.2.1)) (szt t.2.1, szt t.1)) (szt t.2.1, szt t.2.2))
    (szt t.2.2, szt t.2.1)) (szt t.1, szt t.2.2)) (szt t.2.2, szt t.1)

/-- `fs::Mesh::as_edgelist`. -/
def Mesh.as_edgelist (mesh : Mesh) : Option (List (Nat × Nat)) :=
  (facesTriples mesh.faces).map (fun ts => ts.foldl addFaceEdgesE [])

/-- The unchecked `adjl[i].push_back(x)`. -/
def pushAt (adjl : List (List Nat)) (i : Nat) (x : Nat) : Option (List (List Nat)) :=
  match adjl.get? i with
  | none => none
  | some row => some (adjl.set i (row ++ [x]))

/-- `fs::Mesh::_as_adjlist_via_edgeset`: start from `num_vertices` empty
rows, then `adjl[get<0>(e)].push_back(get<1>(e))` for every edge of the
set. -/
def Mesh._as_adjlist_via_edgeset (mesh : Mesh) : Option (List (List Nat)) := do
  let es ← mesh.as_edgelist
  es.foldlM (fun adjl e => pushAt adjl e.1 e.2)
    (List.replicate mesh.num_vertices [])

/-- Index pairs `(i, j)` visited by the double loop
`for(i = 0..nv) for(j = i+1..nv)` of `fs::Mesh::as_adjlist`, in loop
order. -/
def pairsUpper (n : Nat) : List (Nat × Nat) :=
  (List.range n).flatMap (fun i =>
    (List.range' (i + 1) (n - (i + 1))).map (fun j => (i, j)))

/-- The matrix path of `fs::Mesh::as_adjlist` (the code after the early
return): build the adjacency matrix, let `nv = adjm.size()`, and for every
`i < j < nv` with `adjm[i][j]` push `j` onto row `i` and `i` onto row
`j`. -/
def Mesh._as_adjlist_via_matrix (mesh : Mesh) : Option (List (List Nat)) := do
  let adjm ← mesh.as_adjmatrix
  (pairsUpper adjm.length).foldlM
    (fun adjl p =>
      if get2 adjm p.1 p.2 then do
        let a1 ← pushAt adjl p.1 p.2
        pushAt a1 p.2 p.1
      else some adjl)
    (List.replicate mesh.num_vertices [])

/-- `fs::Mesh::as_adjlist(via_matrix)`. -/
def Mesh.as_adjlist (mesh : Mesh) (via_matrix : Bool) : Option (List (List Nat)) :=
  if via_matrix then mesh._as_adjlist_via_matrix else mesh._as_adjlist_via_edgeset

/-- The six directed `size_t` index pairs a face `(a, b, c)` contributes to
the edge relation (specification-side helper). -/
def tripleDirEdges (t : Int × Int × Int) : List (Nat × Nat) :=
  [(szt t.1, szt t.2.1), (szt t.2.1, szt t.1), (szt t.2.1, szt t.2.2),
   (szt t.2.2, szt t.2.1), (szt t.2.2, szt t.1), (szt t.1, szt t.2.2)]

theorem szt_lt {i : Int} {n : Nat} (h0 : 0 ≤ i) (hn : i < (n : Int))
    (h31 : i < 2 ^ 31) : szt i < n := by
  unfold szt
  have h64 : i < (2 : Int) ^ 64 := lt_trans h31 (by norm_num)
  have hmod : i % 2 ^ 64 = i := Int.emod_eq_of_lt h0 h64
  rw [hmod]
  omega

theorem szt_inj {i j : Int} (hi : 0 ≤ i) (hi31 : i < 2 ^ 31)
    (hj : 0 ≤ j) (hj31 : j < 2 ^ 31) (hne : i ≠ j) : szt i ≠ szt j := by
  unfold szt
  have hmi : i % 2 ^ 64 = i := Int.emod_eq_of_lt hi (lt_trans hi31 (by norm_num))
  have hmj : j % 2 ^ 64 = j := Int.emod_eq_of_lt hj (lt_trans hj31 (by norm_num))
  rw [hmi, hmj]
  omega

theorem mem_esInsert (es : List (Nat × Nat)) (e e' : Nat × Nat) :
    e' ∈ esInsert es e ↔ e' ∈ es ∨ e' = e := by
  unfold esInsert
  by_cases h : e ∈ es
  · rw [if_pos h]
    exact ⟨Or.inl, fun hc => hc.elim id (fun he => he ▸ h)⟩
  · rw [if_neg h]
    simp [List.mem_append]

theorem nodup_esInsert (es : List (Nat × Nat)) (e : Nat × Nat) (h : es.Nodup) :
    (esInsert es e).Nodup := by
  unfold esInsert
  by_cases hmem : e ∈ es
  · rw [if_pos hmem]
    exact h
  · rw [if_neg hmem, List.nodup_append]
    exact ⟨h, List.nodup_singleton e,
      fun a ha hb => hmem ((List.mem_singleton.mp hb) ▸ ha)⟩

theorem mem_addFaceEdgesE (es : List (Nat × Nat)) (t : Int × Int × Int)
    (e : Nat × Nat) :
    e ∈ addFaceEdgesE es t ↔ e ∈ es ∨ e ∈ tripleDirEdges t := by
  simp only [addFaceEdgesE, mem_esInsert, tripleDirEdges, List.mem_cons,
    List.not_mem_nil, or_false]
  tauto

theorem nodup_addFaceEdgesE (es : List (Nat × Nat)) (t : Int × Int × Int)
    (h : es.Nodup) : (addFaceEdgesE es t).Nodup := by
  unfold addFaceEdgesE
  exact nodup_esInsert _ _ (nodup_esInsert _ _ (nodup_esInsert _ _
    (nodup_esInsert _ _ (nodup_esInsert _ _ (nodup_esInsert _ _ h)))))

theorem edgelist_fold_spec (ts : List (Int × Int × Int)) :
    ∀ es : List (Nat × Nat), es.Nodup →
      (ts.foldl addFaceEdgesE es).Nodup ∧
      (∀ e, e ∈ ts.foldl addFaceEdgesE es
        ↔ e ∈ es ∨ ∃ t ∈ ts, e ∈ tripleDirEdges t) := by
  induction ts with
  | nil =>
    intro es h
    refine ⟨h, fun e => ?_⟩
    simp
  | cons t ts ih =>
    intro es h
    rw [List.foldl_cons]
    obtain ⟨hnd, hmem⟩ := ih (addFaceEdgesE es t) (nodup_addFaceEdgesE es t h)
    refine ⟨hnd, fun e => ?_⟩
    rw [hmem e, mem_addFaceEdgesE]
    simp only [List.mem_cons]
    constructor
    · rintro ((he | ht) | ⟨t', ht', he'⟩)
      · exact Or.inl he
      · exact Or.inr ⟨t, Or.inl rfl, ht⟩
      · exact Or.inr ⟨t', Or.inr ht', he'⟩
    · rintro (he | ⟨t', (rfl | ht'), he'⟩)
      · exact Or.inl (Or.inl he)
      · exact Or.inl (Or.inr he')
      · exact Or.inr ⟨t', ht', he'⟩

theorem get?_eq_getD_of_lt {α : Type} (l : List α) (k : Nat) (d : α)
    (h : k < l.length) : l.get? k = some (l.getD k d) := by
  rw [List.get?_eq_getElem?, List.getD_eq_getElem?_getD, List.getElem?_eq_getElem h]
  rfl

theorem getD_set_self {α : Type} (l : List α) (k : Nat) (x d : α)
    (hk : k < l.length) : (l.set k x).getD k d = x := by
  rw [List.getD_eq_getElem?_getD, List.getElem?_set_self hk]
  rfl

theorem getD_set_ne {α : Type} (l : List α) (k p : Nat) (x d : α) (h : k ≠ p) :
    (l.set k x).getD p d = l.getD p d := by
  rw [List.getD_eq_getElem?_getD, List.getElem?_set_ne h, ← List.getD_eq_getElem?_getD]

theorem getD_replicate {α : Type} (n k : Nat) (x d : α) :
    (List.replicate n x).getD k d = if k < n then x else d := by
  by_cases h : k < n
  · rw [List.getD_eq_getElem?_getD, List.getElem?_replicate, if_pos h, if_pos h]
    rfl
  · rw [List.getD_eq_getElem?_getD, List.getElem?_replicate, if_neg h, if_neg h]
    rfl

theorem get2_replicate_false (n p q : Nat) :
    get2 (List.replicate n (List.replicate n false)) p q = false := by
  unfold get2
  rw [getD_replicate]
  by_cases hp : p < n
  · rw [if_pos hp, getD_replicate]
    by_cases hq : q < n
    · rw [if_pos hq]
    · rw [if_neg hq]
  · rw [if_neg hp]
    rfl

theorem set2_spec {m : List (List Bool)} {n : Nat}
    (hlen : m.length = n) (hrows : ∀ row ∈ m, row.length = n)
    (i j : Int) (hi : szt i < n) (hj : szt j < n) :
    ∃ m', set2 m i j = some m'
      ∧ m'.length = n ∧ (∀ row ∈ m', row.length = n)
      ∧ ∀ p q : Nat,
          (get2 m' p q = true ↔ get2 m p q = true ∨ (p = szt i ∧ q = szt j)) := by
  have hilen : szt i < m.length := by omega
  have hrowmem : m.getD (szt i) [] ∈ m := by
    rw [List.getD_eq_getElem?_getD, List.getElem?_eq_getElem hilen]
    simp only [Option.getD_some]
    exact List.getElem_mem _
  have hrowlen : (m.getD (szt i) []).length = n := hrows _ hrowmem
  refine ⟨m.set (szt i) ((m.getD (szt i) []).set (szt j) true), ?_, ?_, ?_, ?_⟩
  · unfold set2
    rw [get?_eq_getD_of_lt m (szt i) [] hilen]
    simp only
    rw [if_pos (by rw [hrowlen]; exact hj)]
  · rw [List.length_set]
    exact hlen
  · intro row hrow
    rcases List.mem_or_eq_of_mem_set hrow with hmem | heq
    · exact hrows row hmem
    · rw [heq, List.length_set]
      exact hrowlen
  · intro p q
    unfold get2
    by_cases hp : p = szt i
    · subst hp
      rw [getD_set_self _ _ _ _ hilen]
      by_cases hq : q = szt j
      · subst hq
        rw [getD_set_self _ _ _ _ (by rw [hrowlen]; exact hj)]
        simp
      · rw [getD_set_ne _ _ _ _ _ (fun hc => hq hc.symm)]
        constructor
        · exact Or.inl
        · rintro (hh | ⟨_, hq'⟩)
          · exact hh
          · exact absurd hq'.symm (fun hc => hq hc.symm)
    · rw [getD_set_ne _ _ _ _ _ (fun hc => hp hc.symm)]
      constructor
      · exact Or.inl
      · rintro (hh | ⟨hp', _⟩)
        · exact hh
        · exact absurd hp'.symm (fun hc => hp hc.symm)

theorem addFaceEdgesM_spec {m : List (List Bool)} {n : Nat}
    (hlen : m.length = n) (hrows : ∀ row ∈ m, row.length = n)
    (t : Int × Int × Int)
    (hb : szt t.1 < n ∧ szt t.2.1 < n ∧ szt t.2.2 < n) :
    ∃ m', addFaceEdgesM m t = some m'
      ∧ m'.length = n ∧ (∀ row ∈ m', row.length = n)
      ∧ ∀ p q : Nat,
          (get2 m' p q = true ↔ get2 m p q = true ∨ (p, q) ∈ tripleDirEdges t) := by
  obtain ⟨h1, h2, h3⟩ := hb
  obtain ⟨m1, e1, l1, r1, c1⟩ := set2_spec hlen hrows t.1 t.2.1 h1 h2
  obtain ⟨m2, e2, l2, r2, c2⟩ := set2_spec l1 r1 t.2.1 t.1 h2 h1
  obtain ⟨m3, e3, l3, r3, c3⟩ := set2_spec l2 r2 t.2.1 t.2.2 h2 h3
  obtain ⟨m4, e4, l4, r4, c4⟩ := set2_spec l3 r3 t.2.2 t.2.1 h3 h2
  obtain ⟨m5, e5, l5, r5, c5⟩ := set2_spec l4 r4 t.2.2 t.1 h3 h1
  obtain ⟨m6, e6, l6, r6, c6⟩ := set2_spec l5 r5 t.1 t.2.2 h1 h3
  refine ⟨m6, ?_, l6, r6, ?_⟩
  · simp only [addFaceEdgesM, e1, e2, e3, e4, e5, e6, Option.bind_eq_bind,
      Option.some_bind]
  · intro p q
    rw [c6 p q, c5 p q, c4 p q, c3 p q, c2 p q, c1 p q]
    simp only [tripleDirEdges, List.mem_cons, List.not_mem_nil, or_false,
      Prod.mk.injEq, or_assoc]

theorem adjmatrix_fold_spec (n : Nat) (ts : List (Int × Int × Int)) :
    ∀ acc : List (List Bool),
      acc.length = n → (∀ row ∈ acc, row.length = n) →
      (∀ t ∈ ts, szt t.1 < n ∧ szt t.2.1 < n ∧ szt t.2.2 < n) →
      ∃ M, ts.foldlM addFaceEdgesM acc = some M
        ∧ M.length = n ∧ (∀ row ∈ M, row.length = n)
        ∧ ∀ p q : Nat, (get2 M p q = true ↔ get2 acc p q = true
            ∨ ∃ t ∈ ts, (p, q) ∈ tripleDirEdges t) := by
  induction ts with
  | nil =>
    intro acc h1 h2 _
    refine ⟨acc, rfl, h1, h2, fun p q => ?_⟩
    simp
  | cons t ts ih =>
    intro acc h1 h2 hb
    obtain ⟨m1, e1, l1, r1, c1⟩ :=
      addFaceEdgesM_spec h1 h2 t (hb t (List.mem_cons_self t ts))
    obtain ⟨M, eM, lM, rM, cM⟩ :=
      ih m1 l1 r1 (fun t' ht' => hb t' (List.mem_cons_of_mem t ht'))
    refine ⟨M, ?_, lM, rM, ?_⟩
    · rw [List.foldlM_cons, e1]
      simpa using eM
    · intro p q
      rw [cM p q, c1 p q]
      constructor
      · rintro ((hh | ht) | ⟨t', ht', he'⟩)
        · exact Or.inl hh
        · exact Or.inr ⟨t, List.mem_cons_self t ts, ht⟩
        · exact Or.inr ⟨t', List.mem_cons_of_mem t ht', he'⟩
      · rintro (hh | ⟨t', ht', he'⟩)
        · exact Or.inl (Or.inl hh)
        · rcases List.mem_cons.mp ht' with rfl | htl
          · exact Or.inl (Or.inr he')
          · exact Or.inr ⟨t', htl, he'⟩

theorem mem_pairsUpper {n : Nat} {p : Nat × Nat} :
    p ∈ pairsUpper n ↔ p.1 < p.2 ∧ p.2 < n := by
  obtain ⟨a, b⟩ := p
  unfold pairsUpper
  simp only [List.mem_flatMap, List.mem_range, List.mem_map, List.mem_range'_1,
    Prod.mk.injEq]
  constructor
  · rintro ⟨i, hi, j, ⟨hj1, hj2⟩, rfl, rfl⟩
    exact ⟨by omega, by omega⟩
  · rintro ⟨hab, hbn⟩
    exact ⟨a, by omega, b, ⟨by omega, by omega⟩, rfl, rfl⟩

theorem nodup_pairsUpper (n : Nat) : (pairsUpper n).Nodup := by
  unfold pairsUpper
  rw [List.nodup_flatMap]
  constructor
  · intro i _
    refine List.Nodup.map ?_ (List.nodup_range' _ _)
    intro x y hxy
    exact ((Prod.mk.injEq i x i y).mp hxy).2
  · refine List.Pairwise.imp ?_ (List.pairwise_lt_range n)
    intro a b hab x hx hx'
    simp only [Function.onFun, List.mem_map] at hx hx'
    obtain ⟨j, _, rfl⟩ := hx
    obtain ⟨j', _, h'⟩ := hx'
    have hcontra : b = a := ((Prod.mk.injEq b j' a j).mp h').1
    omega

theorem adjlist_push_fold (n : Nat) (es : List (Nat × Nat)) :
    ∀ acc : List (List Nat),
      acc.length = n → es.Nodup →
      (∀ e ∈ es, e.1 < n) →
      (∀ v, (acc.getD v []).Nodup) →
      (∀ e ∈ es, e.2 ∉ acc.getD e.1 []) →
      ∃ B, es.foldlM (fun adjl e => pushAt adjl e.1 e.2) acc = some B
        ∧ B.length = n ∧ (∀ v, (B.getD v []).Nodup)
        ∧ ∀ v u : Nat, (u ∈ B.getD v [] ↔ u ∈ acc.getD v [] ∨ (v, u) ∈ es) := by
  induction es with
  | nil =>
    intro acc h1 _ _ h4 _
    refine ⟨acc, rfl, h1, h4, fun v u => ?_⟩
    simp
  | cons e es ih =>
    intro acc h1 hnd hbound h4 h5
    obtain ⟨v0, u0⟩ := e
    have hv0 : v0 < n := hbound _ (List.mem_cons_self _ _)
    have hpush : pushAt acc v0 u0 = some (acc.set v0 ((acc.getD v0 []) ++ [u0])) := by
      unfold pushAt
      rw [get?_eq_getD_of_lt acc v0 [] (by omega)]
    have hgetD' : ∀ v, (acc.set v0 ((acc.getD v0 []) ++ [u0])).getD v []
        = if v = v0 then (acc.getD v0 []) ++ [u0] else acc.getD v [] := by
      intro v
      by_cases hv : v = v0
      · subst hv
        rw [if_pos rfl, getD_set_self _ _ _ _ (by omega)]
      · rw [if_neg hv, getD_set_ne _ _ _ _ _ (fun hc => hv hc.symm)]
    have hnd' : ∀ v, ((acc.set v0 ((acc.getD v0 []) ++ [u0])).getD v []).Nodup := by
      intro v
      rw [hgetD' v]
      by_cases hv : v = v0
      · rw [if_pos hv]
        have hu0 : u0 ∉ acc.getD v0 [] := h5 (v0, u0) (List.mem_cons_self _ _)
        rw [List.nodup_append]
        exact ⟨h4 v0, List.nodup_singleton _,
          fun a ha hb => hu0 ((List.mem_singleton.mp hb) ▸ ha)⟩
      · rw [if_neg hv]
        exact h4 v
    have h5' : ∀ e' ∈ es, e'.2 ∉ (acc.set v0 ((acc.getD v0 []) ++ [u0])).getD e'.1 [] := by
      intro e' he'
      rw [hgetD' e'.1]
      by_cases hv : e'.1 = v0
      · rw [if_pos hv]
        intro hc
        rcases List.mem_append.mp hc with hin | hsing
        · exact h5 e' (List.mem_cons_of_mem _ he') (by rw [hv]; exact hin)
        · have he'eq : e' = (v0, u0) := by
            obtain ⟨a, b⟩ := e'
            simp only at hv
            rw [Prod.mk.injEq]
            exact ⟨hv, List.mem_singleton.mp hsing⟩
          exact (List.nodup_cons.mp hnd).1 (he'eq ▸ he')
      · rw [if_neg hv]
        exact h5 e' (List.mem_cons_of_mem _ he')
    obtain ⟨B, eB, lB, ndB, cB⟩ := ih (acc.set v0 ((acc.getD v0 []) ++ [u0]))
      (by rw [List.length_set]; exact h1) (List.nodup_cons.mp hnd).2
      (fun e' he' => hbound e' (List.mem_cons_of_mem _ he')) hnd' h5'
    refine ⟨B, ?_, lB, ndB, ?_⟩
    · rw [List.foldlM_cons]
      simp only
      rw [hpush]
      simpa using eB
    · intro v u
      rw [cB v u, hgetD' v]
      by_cases hv : v = v0
      · subst hv
        rw [if_pos rfl]
        simp only [List.mem_append, List.mem_cons, List.not_mem_nil, or_false,
          Prod.mk.injEq, eq_self_iff_true, true_and]
        rw [or_assoc]
      · rw [if_neg hv]
        simp only [List.mem_cons, Prod.mk.injEq]
        constructor
        · rintro (hh | hh)
          · exact Or.inl hh
          · exact Or.inr (Or.inr hh)
        · rintro (hh | ⟨hveq, _⟩ | hh)
          · exact Or.inl hh
          · exact absurd hveq hv
          · exact Or.inr hh

theorem adjlist_pairs_fold (n : Nat) (M : List (List Bool)) (ps : List (Nat × Nat)) :
    ∀ acc : List (List Nat),
      acc.length = n → ps.Nodup →
      (∀ p ∈ ps, p.1 < p.2 ∧ p.2 < n) →
      (∀ v, (acc.getD v []).Nodup) →
      (∀ p ∈ ps, p.2 ∉ acc.getD p.1 [] ∧ p.1 ∉ acc.getD p.2 []) →
      ∃ A, ps.foldlM
          (fun adjl p => if get2 M p.1 p.2 then do
              let a1 ← pushAt adjl p.1 p.2
              pushAt a1 p.2 p.1
            else some adjl) acc = some A
        ∧ A.length = n ∧ (∀ v, (A.getD v []).Nodup)
        ∧ ∀ v u : Nat, (u ∈ A.getD v [] ↔ u ∈ acc.getD v []
            ∨ ((v, u) ∈ ps ∧ get2 M v u = true)
            ∨ ((u, v) ∈ ps ∧ get2 M u v = true)) := by
  induction ps with
  | nil =>
    intro acc h1 _ _ h4 _
    refine ⟨acc, rfl, h1, h4, fun v u => ?_⟩
    simp
  | cons p ps ih =>
    intro acc h1 hnd hord h4 h5
    obtain ⟨i, j⟩ := p
    obtain ⟨hij, hjn⟩ := hord (i, j) (List.mem_cons_self _ _)
    simp only at hij hjn
    have hin : i < n := lt_trans hij hjn
    have hne : i ≠ j := Nat.ne_of_lt hij
    have hnotin : (i, j) ∉ ps := (List.nodup_cons.mp hnd).1
    by_cases hM : get2 M i j = true
    · have hji : j ∉ acc.getD i [] := (h5 (i, j) (List.mem_cons_self _ _)).1
      have hijr : i ∉ acc.getD j [] := (h5 (i, j) (List.mem_cons_self _ _)).2
      have hpush1 : pushAt acc i j = some (acc.set i ((acc.getD i []) ++ [j])) := by
        unfold pushAt
        rw [get?_eq_getD_of_lt acc i [] (by omega)]
      have hrow1j : (acc.set i ((acc.getD i []) ++ [j])).getD j [] = acc.getD j [] :=
        getD_set_ne _ _ _ _ _ hne
      have hpush2 : pushAt (acc.set i ((acc.getD i []) ++ [j])) j i
          = some ((acc.set i ((acc.getD i []) ++ [j])).set j ((acc.getD j []) ++ [i])) := by
        unfold pushAt
        rw [get?_eq_getD_of_lt _ j [] (by rw [List.length_set]; omega), hrow1j]
      set acc2 := (acc.set i ((acc.getD i []) ++ [j])).set j ((acc.getD j []) ++ [i])
        with hacc2
      have hgetD2 : ∀ v, acc2.getD v []
          = if v = i then (acc.getD i []) ++ [j]
            else if v = j then (acc.getD j []) ++ [i]
            else acc.getD v [] := by
        intro v
        by_cases hvi : v = i
        · rw [if_pos hvi, hvi, hacc2,
            getD_set_ne _ _ _ _ _ (fun hc => hne hc.symm),
            getD_set_self _ _ _ _ (by omega)]
        · rw [if_neg hvi]
          by_cases hvj : v = j
          · rw [if_pos hvj, hvj, hacc2,
              getD_set_self _ _ _ _ (by rw [List.length_set]; omega)]
          · rw [if_neg hvj, hacc2,
              getD_set_ne _ _ _ _ _ (fun hc => hvj hc.symm),
              getD_set_ne _ _ _ _ _ (fun hc => hvi hc.symm)]
      have hnd2 : ∀ v, (acc2.getD v []).Nodup := by
        intro v
        rw [hgetD2 v]
        by_cases hvi : v = i
        · rw [if_pos hvi, List.nodup_append]
          exact ⟨h4 i, List.nodup_singleton _,
            fun a ha hb => hji ((List.mem_singleton.mp hb) ▸ ha)⟩
        · rw [if_neg hvi]
          by_cases hvj : v = j
          · rw [if_pos hvj, List.nodup_append]
            exact ⟨h4 j, List.nodup_singleton _,
              fun a ha hb => hijr ((List.mem_singleton.mp hb) ▸ ha)⟩
          · rw [if_neg hvj]
            exact h4 v
      have hord' : ∀ p ∈ ps, p.1 < p.2 ∧ p.2 < n :=
        fun p hp => hord p (List.mem_cons_of_mem _ hp)
      have h5' : ∀ p ∈ ps, p.2 ∉ acc2.getD p.1 [] ∧ p.1 ∉ acc2.getD p.2 [] := by
        intro p hp
        obtain ⟨v, u⟩ := p
        obtain ⟨hvu, hun⟩ := hord' (v, u) hp
        simp only at hvu hun ⊢
        constructor
        · rw [hgetD2 v]
          by_cases hvi : v = i
          · rw [if_pos hvi]
            intro hc
            rcases List.mem_append.mp hc with hin2 | hsing
            · exact (h5 _ (List.mem_cons_of_mem _ hp)).1 (by rw [hvi]; exact hin2)
            · have heq : (v, u) = (i, j) := by
                rw [Prod.mk.injEq]
                exact ⟨hvi, List.mem_singleton.mp hsing⟩
              exact hnotin (heq ▸ hp)
          · rw [if_neg hvi]
            by_cases hvj : v = j
            · rw [if_pos hvj]
              intro hc
              rcases List.mem_append.mp hc with hin2 | hsing
              · exact (h5 _ (List.mem_cons_of_mem _ hp)).1 (by rw [hvj]; exact hin2)
              · have hui : u = i := List.mem_singleton.mp hsing
                omega
            · rw [if_neg hvj]
              exact (h5 _ (List.mem_cons_of_mem _ hp)).1
        · rw [hgetD2 u]
          by_cases hui : u = i
          · rw [if_pos hui]
            intro hc
            rcases List.mem_append.mp hc with hin2 | hsing
            · exact (h5 _ (List.mem_cons_of_mem _ hp)).2 (by rw [hui]; exact hin2)
            · have hvj : v = j := List.mem_singleton.mp hsing
              omega
          · rw [if_neg hui]
            by_cases huj : u = j
            · rw [if_pos huj]
              intro hc
              rcases List.mem_append.mp hc with hin2 | hsing
              · exact (h5 _ (List.mem_cons_of_mem _ hp)).2 (by rw [huj]; exact hin2)
              · have hvi : v = i := List.mem_singleton.mp hsing
                have heq : (v, u) = (i, j) := by
                  rw [Prod.mk.injEq]
                  exact ⟨hvi, huj⟩
                exact hnotin (heq ▸ hp)
            · rw [if_neg huj]
              exact (h5 _ (List.mem_cons_of_mem _ hp)).2
      obtain ⟨A, eA, lA, ndA, cA⟩ := ih acc2
        (by rw [hacc2, List.length_set, List.length_set]; exact h1)
        (List.nodup_cons.mp hnd).2 hord' hnd2 h5'
      refine ⟨A, ?_, lA, ndA, ?_⟩
      · rw [List.foldlM_cons]
        simp only
        rw [if_pos hM, hpush1]
        simp only [Option.bind_eq_bind, Option.some_bind]
        rw [hpush2]
        simpa using eA
      · intro v u
        rw [cA v u, hgetD2 v]
        constructor
        · intro hh
          rcases hh with hacc2v | ⟨hm, hg⟩ | ⟨hm, hg⟩
          · by_cases hvi : v = i
            · rw [if_pos hvi] at hacc2v
              rcases List.mem_append.mp hacc2v with hin2 | hsing
              · exact Or.inl (by rw [hvi]; exact hin2)
              · have huj : u = j := List.mem_singleton.mp hsing
                refine Or.inr (Or.inl ⟨?_, ?_⟩)
                · rw [hvi, huj]
                  exact List.mem_cons_self _ _
                · rw [hvi, huj]
                  exact hM
            · rw [if_neg hvi] at hacc2v
              by_cases hvj : v = j
              · rw [if_pos hvj] at hacc2v
                rcases List.mem_append.mp hacc2v with hin2 | hsing
                · exact Or.inl (by rw [hvj]; exact hin2)
                · have hui : u = i := List.mem_singleton.mp hsing
                  refine Or.inr (Or.inr ⟨?_, ?_⟩)
                  · rw [hvj, hui]
                    exact List.mem_cons_self _ _
                  · rw [hvj, hui]
                    exact hM
              · rw [if_neg hvj] at hacc2v
                exact Or.inl hacc2v
          · exact Or.inr (Or.inl ⟨List.mem_cons_of_mem _ hm, hg⟩)
          · exact Or.inr (Or.inr ⟨List.mem_cons_of_mem _ hm, hg⟩)
        · intro hh
          rcases hh with haccv | ⟨hm, hg⟩ | ⟨hm, hg⟩
          · left
            by_cases hvi : v = i
            · rw [if_pos hvi]
              exact List.mem_append.mpr (Or.inl (by rw [← hvi]; exact haccv))
            · rw [if_neg hvi]
              by_cases hvj : v = j
              · rw [if_pos hvj]
                exact List.mem_append.mpr (Or.inl (by rw [← hvj]; exact haccv))
              · rw [if_neg hvj]
                exact haccv
          · rcases List.mem_cons.mp hm with heq | htl
            · have hvi : v = i := ((Prod.mk.injEq _ _ _ _).mp heq).1
              have huj : u = j := ((Prod.mk.injEq _ _ _ _).mp heq).2
              left
              rw [if_pos hvi]
              exact List.mem_append.mpr (Or.inr (by rw [huj]; exact List.mem_singleton.mpr rfl))
            · exact Or.inr (Or.inl ⟨htl, hg⟩)
          · rcases List.mem_cons.mp hm with heq | htl
            · have hui : u = i := ((Prod.mk.injEq _ _ _ _).mp heq).1
              have hvj : v = j := ((Prod.mk.injEq _ _ _ _).mp heq).2
              left
              rw [if_neg (by omega : ¬ v = i), if_pos hvj]
              exact List.mem_append.mpr (Or.inr (by rw [hui]; exact List.mem_singleton.mpr rfl))
            · exact Or.inr (Or.inr ⟨htl, hg⟩)
    · obtain ⟨A, eA, lA, ndA, cA⟩ := ih acc h1 (List.nodup_cons.mp hnd).2
        (fun p hp => hord p (List.mem_cons_of_mem _ hp)) h4
        (fun p hp => h5 p (List.mem_cons_of_mem _ hp))
      refine ⟨A, ?_, lA, ndA, ?_⟩
      · rw [List.foldlM_cons]
        simp only
        rw [if_neg hM]
        simpa using eA
      · intro v u
        rw [cA v u]
        constructor
        · rintro (hh | ⟨hm, hg⟩ | ⟨hm, hg⟩)
          · exact Or.inl hh
          · exact Or.inr (Or.inl ⟨List.mem_cons_of_mem _ hm, hg⟩)
          · exact Or.inr (Or.inr ⟨List.mem_cons_of_mem _ hm, hg⟩)
        · rintro (hh | ⟨hm, hg⟩ | ⟨hm, hg⟩)
          · exact Or.inl hh
          · rcases List.mem_cons.mp hm with heq | htl
            · have hvi : v = i := ((Prod.mk.injEq _ _ _ _).mp heq).1
              have huj : u = j := ((Prod.mk.injEq _ _ _ _).mp heq).2
              rw [hvi, huj] at hg
              exact absurd hg hM
            · exact Or.inr (Or.inl ⟨htl, hg⟩)
          · rcases List.mem_cons.mp hm with heq | htl
            · have hui : u = i := ((Prod.mk.injEq _ _ _ _).mp heq).1
              have hvj : v = j := ((Prod.mk.injEq _ _ _ _).mp heq).2
              rw [hui, hvj] at hg
              exact absurd hg hM
            · exact Or.inr (Or.inr ⟨htl, hg⟩)

theorem tripleDirEdges_symm {t : Int × Int × Int} {p q : Nat} :
    (p, q) ∈ tripleDirEdges t ↔ (q, p) ∈ tripleDirEdges t := by
  simp only [tripleDirEdges, List.mem_cons, List.not_mem_nil, or_false, Prod.mk.injEq]
  tauto

theorem tripleDirEdges_bounds {t : Int × Int × Int} {p q n : Nat}
    (hb : szt t.1 < n ∧ szt t.2.1 < n ∧ szt t.2.2 < n)
    (h : (p, q) ∈ tripleDirEdges t) : p < n ∧ q < n := by
  simp only [tripleDirEdges, List.mem_cons, List.not_mem_nil, or_false,
    Prod.mk.injEq] at h
  obtain ⟨h1, h2, h3⟩ := hb
  rcases h with ⟨rfl, rfl⟩ | ⟨rfl, rfl⟩ | ⟨rfl, rfl⟩ | ⟨rfl, rfl⟩ | ⟨rfl, rfl⟩
    | ⟨rfl, rfl⟩ <;> exact ⟨by omega, by omega⟩

theorem tripleDirEdges_no_self {t : Int × Int × Int} {v : Nat}
    (hb : (0 ≤ t.1 ∧ t.1 < 2 ^ 31) ∧ (0 ≤ t.2.1 ∧ t.2.1 < 2 ^ 31)
      ∧ (0 ≤ t.2.2 ∧ t.2.2 < 2 ^ 31))
    (hd : t.1 ≠ t.2.1 ∧ t.2.1 ≠ t.2.2 ∧ t.1 ≠ t.2.2) :
    (v, v) ∉ tripleDirEdges t := by
  intro h
  simp only [tripleDirEdges, List.mem_cons, List.not_mem_nil, or_false,
    Prod.mk.injEq] at h
  obtain ⟨⟨ha0, ha31⟩, ⟨hb0, hb31⟩, ⟨hc0, hc31⟩⟩ := hb
  obtain ⟨hab, hbc, hac⟩ := hd
  rcases h with ⟨h1, h2⟩ | ⟨h1, h2⟩ | ⟨h1, h2⟩ | ⟨h1, h2⟩ | ⟨h1, h2⟩ | ⟨h1, h2⟩
  · exact szt_inj ha0 ha31 hb0 hb31 hab (h1.symm.trans h2)
  · exact szt_inj hb0 hb31 ha0 ha31 (Ne.symm hab) (h1.symm.trans h2)
  · exact szt_inj hb0 hb31 hc0 hc31 hbc (h1.symm.trans h2)
  · exact szt_inj hc0 hc31 hb0 hb31 (Ne.symm hbc) (h1.symm.trans h2)
  · exact szt_inj hc0 hc31 ha0 ha31 (Ne.symm hac) (h1.symm.trans h2)
  · exact szt_inj ha0 ha31 hc0 hc31 hac (h1.symm.trans h2)

/-- C9: for every mesh whose faces are triples of pairwise-distinct vertex
indices in `[0, num_vertices)` (faces are C++ `int`s, hence also below
`2^31`), the adjacency list built via the dense boolean matrix
(`as_adjlist(true)`) and the one built via the edge set
(`as_adjlist(false)`) agree: both exist, both have `num_vertices` rows, and
for every vertex the two neighbor rows are duplicate-free, contain no
self-entry, and contain exactly the same neighbor indices. -/
theorem as_adjlist_matrix_eq_edgeset (mesh : Mesh) (ts : List (Int × Int × Int))
    (ht : facesTriples mesh.faces = some ts)
    (hb : ∀ t ∈ ts, (0 ≤ t.1 ∧ t.1 < (mesh.num_vertices : Int) ∧ t.1 < 2 ^ 31)
        ∧ (0 ≤ t.2.1 ∧ t.2.1 < (mesh.num_vertices : Int) ∧ t.2.1 < 2 ^ 31)
        ∧ (0 ≤ t.2.2 ∧ t.2.2 < (mesh.num_vertices : Int) ∧ t.2.2 < 2 ^ 31))
    (hd : ∀ t ∈ ts, t.1 ≠ t.2.1 ∧ t.2.1 ≠ t.2.2 ∧ t.1 ≠ t.2.2) :
    ∃ A B, mesh.as_adjlist true = some A ∧ mesh.as_adjlist false = some B
      ∧ A.length = mesh.num_vertices ∧ B.length = mesh.num_vertices
      ∧ ∀ v, v < mesh.num_vertices →
          (A.getD v []).Nodup ∧ (B.getD v []).Nodup
          ∧ v ∉ A.getD v [] ∧ v ∉ B.getD v []
          ∧ (∀ u, u ∈ A.getD v [] → u ∈ B.getD v [])
          ∧ (∀ u, u ∈ B.getD v [] → u ∈ A.getD v []) := by
  have hszt : ∀ t ∈ ts, szt t.1 < mesh.num_vertices ∧ szt t.2.1 < mesh.num_vertices
      ∧ szt t.2.2 < mesh.num_vertices := by
    intro t htm
    obtain ⟨⟨a0, a1, a2⟩, ⟨b0, b1, b2⟩, ⟨c0, c1, c2⟩⟩ := hb t htm
    exact ⟨szt_lt a0 a1 a2, szt_lt b0 b1 b2, szt_lt c0 c1 c2⟩
  have hrepl_rows : ∀ row ∈ List.replicate mesh.num_vertices
      (List.replicate mesh.num_vertices false), row.length = mesh.num_vertices := by
    intro row hrow
    rw [List.eq_of_mem_replicate hrow]
    simp
  obtain ⟨M, eM, lM, rM, cM⟩ := adjmatrix_fold_spec mesh.num_vertices ts _
    (by simp) hrepl_rows hszt
  have hM_char : ∀ p q : Nat,
      (get2 M p q = true ↔ ∃ t ∈ ts, (p, q) ∈ tripleDirEdges t) := by
    intro p q
    rw [cM p q, get2_replicate_false]
    simp
  have hMsym : ∀ p q : Nat, get2 M p q = get2 M q p := by
    intro p q
    cases hpq : get2 M p q <;> cases hqp : get2 M q p <;> try rfl
    · obtain ⟨t, htm, he⟩ := (hM_char q p).mp hqp
      have hcontra := (hM_char p q).mpr ⟨t, htm, tripleDirEdges_symm.mp he⟩
      rw [hpq] at hcontra
      exact absurd hcontra (by simp)
    · obtain ⟨t, htm, he⟩ := (hM_char p q).mp hpq
      have hcontra := (hM_char q p).mpr ⟨t, htm, tripleDirEdges_symm.mp he⟩
      rw [hqp] at hcontra
      exact absurd hcontra (by simp)
  have hrepl2 : ∀ v, ((List.replicate mesh.num_vertices ([] : List Nat)).getD v []) = [] := by
    intro v
    rw [getD_replicate]
    split <;> rfl
  -- edge-set path
  have hes : mesh.as_edgelist = some (ts.foldl addFaceEdgesE []) := by
    unfold Mesh.as_edgelist
    rw [ht]
    rfl
  obtain ⟨hes_nd, hes_mem⟩ := edgelist_fold_spec ts [] List.nodup_nil
  have hes_mem' : ∀ e, e ∈ ts.foldl addFaceEdgesE []
      ↔ ∃ t ∈ ts, e ∈ tripleDirEdges t := by
    intro e
    rw [hes_mem e]
    simp
  have hes_bound : ∀ e ∈ ts.foldl addFaceEdgesE [], e.1 < mesh.num_vertices := by
    intro e he
    obtain ⟨p, q⟩ := e
    obtain ⟨t, htm, hee⟩ := (hes_mem' (p, q)).mp he
    exact (tripleDirEdges_bounds (hszt t htm) hee).1
  obtain ⟨B, eB, lB, ndB, cB⟩ := adjlist_push_fold mesh.num_vertices
    (ts.foldl addFaceEdgesE []) (List.replicate mesh.num_vertices [])
    (by simp) hes_nd hes_bound
    (fun v => by rw [hrepl2]; exact List.nodup_nil)
    (fun e he => by rw [hrepl2]; exact List.not_mem_nil _)
  have hB : mesh._as_adjlist_via_edgeset = some B := by
    unfold Mesh._as_adjlist_via_edgeset
    rw [hes]
    simpa using eB
  have hB_mem : ∀ v u : Nat, (u ∈ B.getD v [] ↔ ∃ t ∈ ts, (v, u) ∈ tripleDirEdges t) := by
    intro v u
    rw [cB v u, hrepl2, ← hes_mem' (v, u)]
    simp
  -- matrix path
  have hMm : mesh.as_adjmatrix = some M := by
    unfold Mesh.as_adjmatrix
    rw [ht]
    simpa using eM
  have hpairs_prop : ∀ p ∈ pairsUpper M.length, p.1 < p.2 ∧ p.2 < mesh.num_vertices := by
    intro p hp
    have hmp := mem_pairsUpper.mp hp
    exact ⟨hmp.1, lM ▸ hmp.2⟩
  obtain ⟨A, eA, lA, ndA, cA⟩ := adjlist_pairs_fold mesh.num_vertices M
    (pairsUpper M.length) (List.replicate mesh.num_vertices [])
    (by simp) (nodup_pairsUpper _) hpairs_prop
    (fun v => by rw [hrepl2]; exact List.nodup_nil)
    (fun p hp => by rw [hrepl2, hrepl2]; exact ⟨List.not_mem_nil _, List.not_mem_nil _⟩)
  have hA : mesh._as_adjlist_via_matrix = some A := by
    unfold Mesh._as_adjlist_via_matrix
    rw [hMm]
    simpa using eA
  have hA_mem : ∀ v u : Nat, (u ∈ A.getD v []
      ↔ ((v, u) ∈ pairsUpper M.length ∧ get2 M v u = true)
        ∨ ((u, v) ∈ pairsUpper M.length ∧ get2 M u v = true)) := by
    intro v u
    rw [cA v u, hrepl2]
    simp
  have hnoselfrel : ∀ w : Nat, ¬ ∃ t ∈ ts, (w, w) ∈ tripleDirEdges t := by
    rintro w ⟨t, htm, he⟩
    obtain ⟨⟨a0, _, a2⟩, ⟨b0, _, b2⟩, ⟨c0, _, c2⟩⟩ := hb t htm
    exact tripleDirEdges_no_self ⟨⟨a0, a2⟩, ⟨b0, b2⟩, ⟨c0, c2⟩⟩ (hd t htm) he
  refine ⟨A, B, ?_, ?_, lA, lB, ?_⟩
  · unfold Mesh.as_adjlist
    rw [if_pos rfl]
    exact hA
  · unfold Mesh.as_adjlist
    rw [if_neg (by simp)]
    exact hB
  · intro v hv
    refine ⟨ndA v, ndB v, ?_, ?_, ?_, ?_⟩
    · intro hc
      rcases (hA_mem v v).mp hc with ⟨_, hg⟩ | ⟨_, hg⟩ <;>
        exact hnoselfrel v ((hM_char v v).mp hg)
    · intro hc
      exact hnoselfrel v ((hB_mem v v).mp hc)
    · intro u hu
      rcases (hA_mem v u).mp hu with ⟨_, hg⟩ | ⟨_, hg⟩
      · exact (hB_mem v u).mpr ((hM_char v u).mp hg)
      · obtain ⟨t, htm, he⟩ := (hM_char u v).mp hg
        exact (hB_mem v u).mpr ⟨t, htm, tripleDirEdges_symm.mp he⟩
    · intro u hu
      obtain ⟨t, htm, he⟩ := (hB_mem v u).mp hu
      have hgvu : get2 M v u = true := (hM_char v u).mpr ⟨t, htm, he⟩
      have hbounds := tripleDirEdges_bounds (hszt t htm) he
      have hvu_ne : v ≠ u := by
        intro hc
        exact hnoselfrel v ⟨t, htm, hc ▸ he⟩
      rcases Nat.lt_or_ge v u with hlt | hge
      · refine (hA_mem v u).mpr (Or.inl ⟨?_, hgvu⟩)
        exact mem_pairsUpper.mpr ⟨hlt, by rw [lM]; exact hbounds.2⟩
      · have hlt' : u < v := by omega
        refine (hA_mem v u).mpr (Or.inr ⟨?_, ?_⟩)
        · exact mem_pairsUpper.mpr ⟨hlt', by rw [lM]; exact hv⟩
        · rw [hMsym u v]
          exact hgvu

/-- Witness for `as_adjlist_matrix_eq_edgeset`: a single triangle on 3
vertices. -/
theorem as_adjlist_matrix_eq_edgeset_witness :
    ∃ A B, Mesh.as_adjlist { vertices := List.replicate 9 0, faces := [0, 1, 2] } true
        = some A
      ∧ Mesh.as_adjlist { vertices := List.replicate 9 0, faces := [0, 1, 2] } false
        = some B
      ∧ A.length = Mesh.num_vertices { vertices := List.replicate 9 0, faces := [0, 1, 2] }
      ∧ B.length = Mesh.num_vertices { vertices := List.replicate 9 0, faces := [0, 1, 2] }
      ∧ ∀ v, v < Mesh.num_vertices { vertices := List.replicate 9 0, faces := [0, 1, 2] } →
          (A.getD v []).Nodup ∧ (B.getD v []).Nodup
          ∧ v ∉ A.getD v [] ∧ v ∉ B.getD v []
          ∧ (∀ u, u ∈ A.getD v [] → u ∈ B.getD v [])
          ∧ (∀ u, u ∈ B.getD v [] → u ∈ A.getD v []) :=
  as_adjlist_matrix_eq_edgeset { vertices := List.replicate 9 0, faces := [0, 1, 2] }
    [(0, 1, 2)] (by decide) (by decide) (by decide)

end fs
